import Mathlib

/-!
# Verification of cehighlighter.js against its specification

Shallow embedding of `src/cehighlighter.js`.  Strings are modelled as
`List Char`.  The host editable surface (spec §6) is modelled by its markup
string; its derived plain-text content (`innerText`) is obtained by removing
tags (`<` … `>`) and decoding the five entities that the library itself
produces.  JavaScript regexes are modelled only as far as the three default
rules need: case-insensitivity is ASCII case folding, `\s` is the JS
whitespace set, `\w` is `[A-Za-z0-9_]`.
-/

namespace CEH

/-- The five markup-significant characters escaped by `utils.escapeHTML`. -/
def isSpecialChar (c : Char) : Bool :=
  decide (c = '&' ∨ c = '<' ∨ c = '>' ∨ c = '"' ∨ c = '\'')

/-- Replace every occurrence of the single character `c` by the string `r`,
modelling `String.prototype.replace` with a one-character global pattern. -/
def replaceAllChar (c : Char) (r : List Char) : List Char → List Char
  | [] => []
  | x :: xs => (if x = c then r else [x]) ++ replaceAllChar c r xs

/-- `utils.escapeHTML`: the five sequential global replacements, in source
order (`&`, `<`, `>`, `"`, `'`). -/
def escapeHTML (s : List Char) : List Char :=
  replaceAllChar '\'' "&#039;".data
    (replaceAllChar '"' "&quot;".data
      (replaceAllChar '>' "&gt;".data
        (replaceAllChar '<' "&lt;".data
          (replaceAllChar '&' "&amp;".data s))))

/-- Per-character view of `escapeHTML` (proved equal to it below). -/
def escapeChar (c : Char) : List Char :=
  if c = '&' then "&amp;".data
  else if c = '<' then "&lt;".data
  else if c = '>' then "&gt;".data
  else if c = '"' then "&quot;".data
  else if c = '\'' then "&#039;".data
  else [c]

/-- The entity strings `escapeHTML` can emit. -/
def entityList : List (List Char) :=
  ["&amp;".data, "&lt;".data, "&gt;".data, "&quot;".data, "&#039;".data]

def hashtagOpen : List Char := "<span class=\"hashtag\">".data
def urlOpen : List Char := "<span class=\"url\">".data
def mentionOpen : List Char := "<span class=\"mention\">".data
def spanClose : List Char := "</span>".data

/-- The literal markup fragments inserted by the three default rule
templates. -/
def fragList : List (List Char) :=
  [hashtagOpen, urlOpen, mentionOpen, spanClose]

/-- Auxiliary bound used by the termination argument of `innerTextOf`. -/
def dropWhileGtLen : ∀ l : List Char, ((l.dropWhile (fun d => d != '>')).length) ≤ l.length := by
  intro l
  induction l with
  | nil => simp
  | cons x xs ih =>
    rw [List.dropWhile_cons]
    by_cases h : (x != '>') = true
    · simp only [h, if_true]
      exact Nat.le_succ_of_le ih
    · simp [h]

/-- Host model: `innerText` of a markup string — tags are removed, the five
entities are decoded, everything else is literal text. -/
def innerTextOf : List Char → List Char
  | [] => []
  | c :: r =>
    if c = '<' then innerTextOf ((r.dropWhile (fun d => d != '>')).drop 1)
    else if c = '&' then
      if "amp;".data.isPrefixOf r then '&' :: innerTextOf (r.drop 4)
      else if "lt;".data.isPrefixOf r then '<' :: innerTextOf (r.drop 3)
      else if "gt;".data.isPrefixOf r then '>' :: innerTextOf (r.drop 3)
      else if "quot;".data.isPrefixOf r then '"' :: innerTextOf (r.drop 5)
      else if "#039;".data.isPrefixOf r then '\'' :: innerTextOf (r.drop 5)
      else '&' :: innerTextOf r
    else c :: innerTextOf r
  termination_by s => s.length
  decreasing_by
    all_goals simp_wf
    all_goals try simp only [List.length_drop, List.length_cons]
    all_goals
      first
      | omega
      | exact Nat.lt_succ_of_le (Nat.le_trans (Nat.sub_le _ _) (dropWhileGtLen _))

/-- Longest prefix of characters satisfying `p`, and the remainder. -/
def takeRun (p : Char → Bool) : List Char → List Char × List Char
  | [] => ([], [])
  | c :: r =>
    if p c then ((c :: (takeRun p r).1), (takeRun p r).2)
    else ([], c :: r)

/-- The remainder of `takeRun` is no longer than the input (termination
helper). -/
def takeRunSndLen (p : Char → Bool) : ∀ l : List Char, ((takeRun p l).2).length ≤ l.length := by
  intro l
  induction l with
  | nil => simp [takeRun]
  | cons x xs ih => by_cases hp : p x <;> simp [takeRun, hp] <;> omega

/-! ## The three default highlight rules -/

/-- JS `\s`. -/
def isJsWs (c : Char) : Bool :=
  decide (c = ' ' ∨ c = '\t' ∨ c = '\n' ∨ c = '\r' ∨ c.toNat = 11 ∨ c.toNat = 12 ∨
    c.toNat = 0xa0 ∨ c.toNat = 0x1680 ∨ (0x2000 ≤ c.toNat ∧ c.toNat ≤ 0x200a) ∨
    c.toNat = 0x2028 ∨ c.toNat = 0x2029 ∨ c.toNat = 0x202f ∨ c.toNat = 0x205f ∨
    c.toNat = 0x3000 ∨ c.toNat = 0xfeff)

/-- JS `\w`. -/
def isWordChar (c : Char) : Bool :=
  decide (('a' ≤ c ∧ c ≤ 'z') ∨ ('A' ≤ c ∧ c ≤ 'Z') ∨ ('0' ≤ c ∧ c ≤ '9') ∨ c = '_')

/-- `[a-z\d-]` under the `i` flag. -/
def isTagWordChar (c : Char) : Bool :=
  decide (('a' ≤ c ∧ c ≤ 'z') ∨ ('A' ≤ c ∧ c ≤ 'Z') ∨ ('0' ≤ c ∧ c ≤ '9') ∨ c = '-')

/-- `[\w-]` (URL host labels). -/
def isHostChar (c : Char) : Bool := isWordChar c || decide (c = '-')

/-- The URL tail class `[\w.,@?^=%&amp;:/~+#-]` (the literal `&amp;` in the
source pattern contributes the characters `&`, `a`, `m`, `p`, `;`; the
letters are subsumed by `\w`). -/
def isUrlA (c : Char) : Bool :=
  isWordChar c || decide (c = '.' ∨ c = ',' ∨ c = '@' ∨ c = '?' ∨ c = '^' ∨
    c = '=' ∨ c = '%' ∨ c = '&' ∨ c = ';' ∨ c = ':' ∨ c = '/' ∨
    c = '~' ∨ c = '+' ∨ c = '#' ∨ c = '-')

/-- The URL final-character class `[\w@?^=%&amp;/~+#-]`. -/
def isUrlB (c : Char) : Bool :=
  isWordChar c || decide (c = '@' ∨ c = '?' ∨ c = '^' ∨ c = '=' ∨ c = '%' ∨
    c = '&' ∨ c = ';' ∨ c = '/' ∨ c = '~' ∨ c = '+' ∨ c = '#' ∨ c = '-')

/-- Case-insensitive literal match: each pattern entry is the pair of the
accepted lower-case and upper-case characters.  Returns the consumed
characters (in their original case, as `$n` substitution copies them) and
the remainder. -/
def matchCi : List (Char × Char) → List Char → Option (List Char × List Char)
  | [], s => some ([], s)
  | _ :: _, [] => none
  | (a, b) :: ps, c :: cs =>
    if c = a ∨ c = b then
      match matchCi ps cs with
      | some pr => some (c :: pr.1, pr.2)
      | none => none
    else none

def httpPat : List (Char × Char) := [('h', 'H'), ('t', 'T'), ('t', 'T'), ('p', 'P')]
def slashPat : List (Char × Char) := [(':', ':'), ('/', '/'), ('/', '/')]

/-- `(\.[\w-]+)+`: greedy repetition of dot-separated host labels. -/
def takeDotGroups : List Char → List Char × List Char
  | [] => ([], [])
  | c :: r =>
    if c = '.' then
      if (takeRun isHostChar r).1.isEmpty then ([], c :: r)
      else
        (c :: ((takeRun isHostChar r).1 ++ (takeDotGroups (takeRun isHostChar r).2).1),
         (takeDotGroups (takeRun isHostChar r).2).2)
    else ([], c :: r)
  termination_by s => s.length
  decreasing_by
    all_goals simp_wf
    all_goals exact Nat.lt_succ_of_le (takeRunSndLen _ _)

/-- Greedy `A*B` with one-level backtracking: the prefix ending at the last
position whose character is in class B (empty if none). -/
def trimToLastB : List Char → List Char
  | [] => []
  | c :: r =>
    if (trimToLastB r).isEmpty then (if isUrlB c then [c] else [])
    else c :: trimToLastB r

/-- Rule 1, hashtag: `/(^|\s)(#[a-z\d-]+)/gi` with template
`'$1<span class="hashtag">$2</span>'`.  Returns `(replacement, length)`. -/
def hashtagTry (i : Nat) (s : List Char) : Option (List Char × Nat) :=
  match s with
  | [] => none
  | c :: r =>
    if i = 0 ∧ c = '#' then
      if (takeRun isTagWordChar r).1.isEmpty then none
      else some (hashtagOpen ++ '#' :: (takeRun isTagWordChar r).1 ++ spanClose,
                 1 + (takeRun isTagWordChar r).1.length)
    else if isJsWs c then
      match r with
      | c2 :: r2 =>
        if c2 = '#' then
          if (takeRun isTagWordChar r2).1.isEmpty then none
          else some (c :: (hashtagOpen ++ '#' :: (takeRun isTagWordChar r2).1 ++ spanClose),
                     2 + (takeRun isTagWordChar r2).1.length)
        else none
      | [] => none
    else none

/-- Rule 2, URL:
`/((https?):\/\/[\w-]+(\.[\w-]+)+([\w.,@?^=%&amp;:/~+#-]*[\w@?^=%&amp;/~+#-])?)/gi`
with template `'<span class="url">$1</span>'`. -/
def urlAfterSlash (pref sl r2 : List Char) : Option (List Char × Nat) :=
  if (takeRun isHostChar r2).1.isEmpty then none
  else
    if (takeDotGroups (takeRun isHostChar r2).2).1.isEmpty then none
    else
      some (urlOpen ++
        (pref ++ sl ++ (takeRun isHostChar r2).1 ++
          (takeDotGroups (takeRun isHostChar r2).2).1 ++
          trimToLastB ((takeRun isUrlA (takeDotGroups (takeRun isHostChar r2).2).2).1)) ++
        spanClose,
        (pref ++ sl ++ (takeRun isHostChar r2).1 ++
          (takeDotGroups (takeRun isHostChar r2).2).1 ++
          trimToLastB ((takeRun isUrlA (takeDotGroups (takeRun isHostChar r2).2).2).1)).length)

def urlCont (pref : List Char) (r : List Char) : Option (List Char × Nat) :=
  match matchCi slashPat r with
  | none => none
  | some (sl, r2) => urlAfterSlash pref sl r2

/-- The greedy-then-backtracking `s?` of `(https?)`: try the match with the
`s` consumed; on failure re-try without it (which then requires `://` at the
`s`, and so fails too, as the regex engine would discover). -/
def urlWithS (proto : List Char) (c : Char) (r1 : List Char) : Option (List Char × Nat) :=
  match urlCont (proto ++ [c]) r1 with
  | some res => some res
  | none => urlCont proto (c :: r1)

def urlProto (proto : List Char) : List Char → Option (List Char × Nat)
  | [] => urlCont proto []
  | c :: r1 =>
    if c = 's' ∨ c = 'S' then urlWithS proto c r1
    else urlCont proto (c :: r1)

def urlTry (s : List Char) : Option (List Char × Nat) :=
  match matchCi httpPat s with
  | none => none
  | some (proto, r1) => urlProto proto r1

/-- Rule 3, mention: `/(@([a-z\d_]+))/gi` with template
`'<span class="mention">$1</span>'`. -/
def mentionTry (s : List Char) : Option (List Char × Nat) :=
  match s with
  | [] => none
  | c :: r =>
    if c = '@' then
      if (takeRun isWordChar r).1.isEmpty then none
      else some (mentionOpen ++ '@' :: (takeRun isWordChar r).1 ++ spanClose,
                 1 + (takeRun isWordChar r).1.length)
    else none

/-- Global-replace scanner: walk the string left to right, at each position
try the rule's matcher; on a match emit its replacement and continue after
the consumed characters (a zero-length match advances one character, as JS
does).  The `Nat` argument is the absolute position, used by `^`. -/
def scanReplace (tryAt : Nat → List Char → Option (List Char × Nat)) :
    Nat → List Char → List Char
  | _, [] => []
  | i, c :: rest =>
    match tryAt i (c :: rest) with
    | some (rep, n) =>
      if n = 0 then rep ++ c :: scanReplace tryAt (i + 1) rest
      else rep ++ scanReplace tryAt (i + n) (rest.drop (n - 1))
    | none => c :: scanReplace tryAt (i + 1) rest
  termination_by i s => s.length
  decreasing_by
    all_goals simp_wf
    all_goals try simp only [List.length_drop, List.length_cons]
    all_goals omega

def rule1 (s : List Char) : List Char := scanReplace hashtagTry 0 s
def rule2 (s : List Char) : List Char := scanReplace (fun _ t => urlTry t) 0 s
def rule3 (s : List Char) : List Char := scanReplace (fun _ t => mentionTry t) 0 s

/-- The default rule pipeline (`settings.regexs.forEach` body). -/
def applyRegexs (s : List Char) : List Char := rule3 (rule2 (rule1 s))

/-- `utils.highlight` as a function on the logical text: escape first, then
apply the ordered default rules; the result is installed as markup. -/
def highlightMarkup (text : List Char) : List Char := applyRegexs (escapeHTML text)

/-! ## Offset mapper

The tree of text-bearing leaves is modelled as the list of the leaves'
character data, in document (tree-walker) order; a leaf is identified by its
index in that list, which models node identity. -/

/-- An offset pair as returned by `utils.getCaretOffsetWithin`; `stop`
models the source's `pos.end`. -/
structure Pos where
  start : Nat
  stop : Nat
  deriving DecidableEq, Repr

/-- A live selection as supplied by the host: anchor and focus are
(leaf index, in-leaf offset) pairs; `collapsed` models `sel.isCollapsed`. -/
structure Sel where
  anchor : Nat × Nat
  focus : Nat × Nat
  collapsed : Bool
  deriving DecidableEq, Repr

/-- The loop of `utils.getCaretOffsetWithin`, walking the leaves with the
running counters `pos.start` (`s`), `pos.end` (`e`) and the
`isBeyondStart` flag. -/
def captureLoop (sel : Sel) : List String → Nat → Bool → Nat → Nat → Pos
  | [], _, _, s, e => ⟨s, e⟩
  | leaf :: rest, k, beyond, s, e =>
    if ¬beyond ∧ k = sel.anchor.1 then
      if sel.collapsed then ⟨s + sel.anchor.2, s + sel.anchor.2⟩
      else
        if k = sel.focus.1 then ⟨s + sel.anchor.2, e + sel.focus.2⟩
        else captureLoop sel rest (k + 1) true (s + sel.anchor.2) (e + leaf.length)
    else
      if ¬sel.collapsed ∧ k = sel.focus.1 then
        ⟨(if ¬beyond then s + leaf.length else s), e + sel.focus.2⟩
      else
        captureLoop sel rest (k + 1) beyond
          (if ¬beyond then s + leaf.length else s)
          (if ¬sel.collapsed then e + leaf.length else e)

/-- `utils.getCaretOffsetWithin`: capture the selection as a `{start, end}`
offset pair relative to the leaves of the given root. -/
def getCaretOffsetWithin (leaves : List String) (sel : Sel) : Pos :=
  captureLoop sel leaves 0 false 0 0

/-- The leaf walk of `utils.setCaretPositionWithin`: find the first leaf at
which the cumulative length reaches the target offset, returning the leaf
index and in-leaf offset of the collapsed selection installed there, or
`none` when the walk exhausts the leaves without reaching the offset. -/
def findLeaf : List String → Nat → Option (Nat × Nat)
  | [], _ => none
  | s :: rest, idx =>
    if idx ≤ s.length then some (0, idx)
    else (findLeaf rest (idx - s.length)).map (fun p => (p.1 + 1, p.2))

/-- A JavaScript argument value as classified by `utils.isNumber`:
an integral number, a non-integral number (including `NaN` and the
infinities, for which `n % 1 === 0` is false), or a non-number. -/
inductive JsArg where
  | int (n : Int)
  | nonIntegralNum
  | nonNum
  deriving DecidableEq, Repr

/-- `utils.isNumber`: `typeof n === 'number' && n % 1 === 0`. -/
def isNumber : JsArg → Bool
  | .int _ => true
  | .nonIntegralNum => false
  | .nonNum => false

/-- `index >= 0` on a `JsArg` (false for non-numbers and `NaN`; the
short-circuiting `&&` in the source makes the combination below faithful). -/
def argGeZero : JsArg → Bool
  | .int n => decide (0 ≤ n)
  | .nonIntegralNum => false
  | .nonNum => false

def argToNat : JsArg → Nat
  | .int n => n.toNat
  | .nonIntegralNum => 0
  | .nonNum => 0

/-- `utils.setCaretPositionWithin`: validate the index, then walk the
leaves; `.error` models the thrown `Invalid index parameter` error,
`.ok none` a walk that exhausted the leaves without installing a selection,
`.ok (some (leaf, off))` the installed collapsed selection. -/
def setCaretPositionWithin (leaves : List String) (v : JsArg) :
    Except String (Option (Nat × Nat)) :=
  if isNumber v && argGeZero v then .ok (findLeaf leaves (argToNat v))
  else .error "Invalid index parameter"

/-- Effect of a `setCaretPositionWithin` call on the active selection:
only a completed walk replaces it (`sel.removeAllRanges(); sel.addRange`);
a thrown error or an exhausted walk leaves it unchanged. -/
def applyCaretCall (st : Option (Nat × Nat)) (leaves : List String) (v : JsArg) :
    Option (Nat × Nat) :=
  match setCaretPositionWithin leaves v with
  | .ok (some p) => some p
  | .ok none => st
  | .error _ => st

/-- Total character length of the leaves (the logical text length). -/
def sumLens (leaves : List String) : Nat := (leaves.map String.length).sum

/-! ## Event subscription (`events`, `attachEvent`, `detachEvent`) -/

/-- A JavaScript callback argument: a function value (identified by id) or a
non-callable value. -/
inductive Cb where
  | fn (id : Nat)
  | notFn
  deriving DecidableEq, Repr

/-- The module-level `events` table: one slot per recognized name. -/
structure Events where
  change : Option Nat
  destroy : Option Nat
  deriving DecidableEq, Repr

/-- The two `throw new Error(...)` sites of `attachEvent`. -/
inductive AttachErr where
  | unsupported (name : String)
  | invalidHandler
  deriving DecidableEq, Repr

/-- `attachEvent`: recognized names are exactly the own keys of `events`
(`change`, `destroy`); the name is checked before the callback. -/
def attachEvent (ev : Events) (name : String) (cb : Cb) : Except AttachErr Events :=
  if name = "change" ∨ name = "destroy" then
    match cb with
    | .fn id =>
      .ok (if name = "change" then ⟨some id, ev.destroy⟩ else ⟨ev.change, some id⟩)
    | .notFn => .error .invalidHandler
  else .error (.unsupported name)

/-! ## Construction-time wiring and `destroy` (listener bookkeeping)

`addEventListener`/`removeEventListener` identify listeners by function
identity; every `.bind(this)` creates a fresh function, modelled by a fresh
identity drawn from a counter. -/

/-- The host element's state relevant to wiring: the `contenteditable`
attribute, the class list, and the registered (event name, function id)
listeners. -/
structure El where
  editable : Bool
  classes : List String
  listeners : List (String × Nat)
  deriving DecidableEq, Repr

/-- An instance together with the fresh-function counter and the number of
times the `destroy` subscription has been invoked. -/
structure Inst where
  el : El
  nextFn : Nat
  destroyFired : Nat
  deriving DecidableEq, Repr

def addListener (e : El) (name : String) (f : Nat) : El :=
  ⟨e.editable, e.classes, e.listeners ++ [(name, f)]⟩

/-- `removeEventListener`: removes a listener only when the very same
function identity was registered for that event. -/
def removeListener (e : El) (name : String) (f : Nat) : El :=
  ⟨e.editable, e.classes, e.listeners.filter (fun p => ¬(p.1 = name ∧ p.2 = f))⟩

/-- The constructor's wiring: set the editable affordance and class, then
register `paste`, `input` and `keypress` listeners, each with a freshly
bound function. -/
def constructWire (i : Inst) : Inst :=
  ⟨addListener
      (addListener
        (addListener ⟨true, i.el.classes ++ ["cehighlighter"], i.el.listeners⟩
          "paste" i.nextFn)
        "input" (i.nextFn + 1))
      "keypress" (i.nextFn + 2),
    i.nextFn + 3, i.destroyFired⟩

/-- `CEHighlighter.prototype.destroy`: strip the affordance and class, call
`removeEventListener` for `paste` and `input` with freshly bound functions
(`onPaste.bind(this)`, `onInput.bind(this)` — new identities), and fire the
`destroy` subscription (modelled as a counter of invocations, assuming a
handler is subscribed). -/
def destroyCall (i : Inst) : Inst :=
  ⟨removeListener
      (removeListener
        ⟨false, i.el.classes.filter (fun c => ¬(c = "cehighlighter")), i.el.listeners⟩
        "paste" i.nextFn)
      "input" (i.nextFn + 1),
    i.nextFn + 2, i.destroyFired + 1⟩

/-! ## Module-level settings (`settings`, `utils.extend`) -/

/-- Identifier for a highlight rule, used to observe which rule list the
shared settings hold. -/
inductive RuleId where
  | hashtag
  | url
  | mention
  | custom (n : Nat)
  deriving DecidableEq, Repr

structure SettingsM where
  className : String
  elastic : Bool
  regexs : List RuleId
  deriving DecidableEq, Repr

/-- The module-level `settings` literal. -/
def defaultSettings : SettingsM := ⟨"cehighlighter", true, [.hashtag, .url, .mention]⟩

/-- A construction `options` object: absent keys are `none`. -/
structure OptionsM where
  className : Option String
  elastic : Option Bool
  regexs : Option (List RuleId)
  deriving DecidableEq, Repr

/-- `utils.extend`: each own key of `options` overwrites the corresponding
key of `defaults` (which the source mutates in place and returns). -/
def extend (s : SettingsM) (o : OptionsM) : SettingsM :=
  ⟨o.className.getD s.className, o.elastic.getD s.elastic, o.regexs.getD s.regexs⟩

/-- The module state: the single shared `settings` value and how many
instances have been constructed. -/
structure ModuleState where
  settings : SettingsM
  constructedCount : Nat
  deriving DecidableEq, Repr

/-- Constructing an instance runs `utils.extend(settings, options)`,
mutating the shared module-level settings. -/
def constructInstance (m : ModuleState) (o : OptionsM) : ModuleState :=
  ⟨extend m.settings o, m.constructedCount + 1⟩

/-- The rule list `utils.highlight` reads when invoked on behalf of the
instance constructed `idx`-th: always the shared module-level value. -/
def rulesSeenBy (m : ModuleState) (idx : Nat) : List RuleId :=
  m.settings.regexs

/-! ## The paste and line-break handlers -/

/-- Observable outcome of one `onPaste`/`onKeyPress` invocation.  `markup`
is the element's final markup, `text` its final `innerText` (the logical
text), `caretReq` the offset passed to `setCaretPositionWithin` (if
reached), `changeFired` whether `trigger('change', …)` completed,
`prevented` whether `e.preventDefault()` ran, `rendered` whether
`utils.highlight` ran, and `errored` whether the handler threw. -/
structure HandlerOutcome where
  markup : List Char
  text : List Char
  caretReq : Option Nat
  changeFired : Bool
  prevented : Bool
  rendered : Bool
  errored : Bool
  deriving DecidableEq, Repr

/-- `onPaste`.  `payload` is the clipboard's plain text (`none` when no
clipboard API yields data, in which case `paste` is `false`).  `pos` is the
captured offset pair.  When the payload is truthy the handler splices the
escaped payload into `innerText` via an `innerHTML` assignment, re-renders,
requests the caret at `pos.start + escapedPastedText.length` — and then
evaluates `trigger('change', _this)`.  `_this` is not declared in any
enclosing scope (`var _this` exists only inside `onInput`), so under the
file's `'use strict'` the reference throws a `ReferenceError`; the
`e.preventDefault()` after it never runs. -/
def onPaste (payload : Option String) (markup0 : List Char) (pos : Pos) :
    HandlerOutcome :=
  match payload with
  | none =>
    ⟨markup0, innerTextOf markup0, none, false, true, false, false⟩
  | some p =>
    if p.data.isEmpty then
      ⟨markup0, innerTextOf markup0, none, false, true, false, false⟩
    else
      let html := innerTextOf markup0
      let escaped := escapeHTML p.data
      let markup1 := html.take pos.start ++ escaped ++ html.drop pos.stop
      let markup2 := highlightMarkup (innerTextOf markup1)
      ⟨markup2, innerTextOf markup2, some (pos.start + escaped.length),
        false, false, true, true⟩

/-- `onKeyPress`: on `e.which === 13` splice the literal `"\r\n"` into
`innerText` via an `innerHTML` assignment, re-render, request the caret at
`pos.start + 1`, fire `change`, and `preventDefault`. -/
def onKeyPress (which : Nat) (markup0 : List Char) (pos : Pos) : HandlerOutcome :=
  if which = 13 then
    let html := innerTextOf markup0
    let markup1 := html.take pos.start ++ "\r\n".data ++ html.drop pos.stop
    let markup2 := highlightMarkup (innerTextOf markup1)
    ⟨markup2, innerTextOf markup2, some (pos.start + 1), true, true, true, false⟩
  else
    ⟨markup0, innerTextOf markup0, none, false, false, false, false⟩

/-! ## Markup safety invariant

A markup string is block-structured when it is a concatenation of
non-markup-significant characters, whole entities produced by
`escapeHTML`, and whole template fragments inserted by the default rules.
In such a string every occurrence of one of the five markup-significant
characters lies inside an entity (an escaped occurrence) or inside
rule-generated template markup. -/

inductive Blocks : List Char → Prop where
  | nil : Blocks []
  | safe : ∀ (c : Char) (rest : List Char),
      isSpecialChar c = false → Blocks rest → Blocks (c :: rest)
  | ent : ∀ (e rest : List Char), e ∈ entityList → Blocks rest → Blocks (e ++ rest)
  | frag : ∀ (f rest : List Char), f ∈ fragList → Blocks rest → Blocks (f ++ rest)

/-- Runs of the URL tail class inside a block-structured string consist of
class-satisfying plain characters and whole entities. -/
inductive ARun : List Char → Prop where
  | nil : ARun []
  | safe : ∀ (c : Char) (rest : List Char),
      isSpecialChar c = false → isUrlA c = true → ARun rest → ARun (c :: rest)
  | ent : ∀ (e rest : List Char), e ∈ entityList → ARun rest → ARun (e ++ rest)

end CEH

namespace CEH

/-! ## Helper lemmas for the offset mapper -/

theorem sumLens_cons (s : String) (rest : List String) :
    sumLens (s :: rest) = s.length + sumLens rest := by
  simp [sumLens]

theorem findLeaf_sound :
    ∀ (leaves : List String) (o j off : Nat),
      findLeaf leaves o = some (j, off) →
      j < leaves.length ∧ sumLens (leaves.take j) + off = o := by
  intro leaves
  induction leaves with
  | nil => intro o j off h; simp [findLeaf] at h
  | cons sLeaf rest ih =>
    intro o j off h
    rw [findLeaf] at h
    by_cases hle : o ≤ sLeaf.length
    · rw [if_pos hle] at h
      simp only [Option.some.injEq, Prod.mk.injEq] at h
      obtain ⟨h1, h2⟩ := h
      subst h1; subst h2
      exact ⟨by simp, by simp [sumLens]⟩
    · rw [if_neg hle] at h
      rcases hmap : findLeaf rest (o - sLeaf.length) with _ | ⟨j', off'⟩
      · rw [hmap] at h; simp at h
      · rw [hmap] at h
        simp only [Option.map_some', Option.some.injEq, Prod.mk.injEq] at h
        obtain ⟨h1, h2⟩ := h
        subst h1; subst h2
        obtain ⟨ihl, ihs⟩ := ih (o - sLeaf.length) j' off' hmap
        refine ⟨by simpa using ihl, ?_⟩
        simp only [List.take_succ_cons, sumLens_cons]
        omega

theorem findLeaf_none :
    ∀ (leaves : List String) (idx : Nat), sumLens leaves < idx → findLeaf leaves idx = none := by
  intro leaves
  induction leaves with
  | nil => intro idx h; rfl
  | cons sLeaf rest ih =>
    intro idx h
    rw [sumLens_cons] at h
    have h1 : ¬(idx ≤ sLeaf.length) := by omega
    rw [findLeaf, if_neg h1, ih (idx - sLeaf.length) (by omega)]
    rfl

theorem captureLoop_hit :
    ∀ (leaves : List String) (j off k s : Nat), j < leaves.length →
      captureLoop ⟨(k + j, off), (k + j, off), true⟩ leaves k false s 0 =
        ⟨s + sumLens (leaves.take j) + off, s + sumLens (leaves.take j) + off⟩ := by
  intro leaves
  induction leaves with
  | nil => intro j off k s h; simp at h
  | cons leaf rest ih =>
    intro j off k s h
    cases j with
    | zero =>
      rw [captureLoop]
      simp [sumLens]
    | succ j' =>
      have hne : ¬(¬false = true ∧ k = k + (j' + 1)) := by
        simp
      have hrec := ih j' off (k + 1) (s + leaf.length)
        (by exact Nat.lt_of_succ_lt_succ h)
      have e1 : k + 1 + j' = k + (j' + 1) := by omega
      rw [e1] at hrec
      rw [captureLoop, if_neg hne]
      simp only [Bool.not_true, Bool.false_eq_true, not_false_eq_true, Bool.true_eq_false,
        and_false, false_and, if_false, ite_true, ite_false, if_neg, reduceIte]
      rw [if_neg (by simp : ¬(¬True ∧ k = k + (j' + 1))),
        if_neg (by simp : ¬¬True), hrec]
      simp only [List.take_succ_cons, sumLens_cons, Pos.mk.injEq]
      omega

/-! ## Claim theorems -/

/-- C1: Round-trip offset mapping — for every tree of text leaves and every
offset `o` with `0 ≤ o ≤ length(T)`, restoring the caret at `o`
(`setCaretPositionWithin`'s leaf walk) and capturing the resulting collapsed
selection (`getCaretOffsetWithin`) yields `{start: o, end: o}`. -/
theorem c1_roundtrip_offset (leaves : List String) (o j off : Nat)
    (hle : o ≤ sumLens leaves)
    (hfind : findLeaf leaves o = some (j, off)) :
    getCaretOffsetWithin leaves ⟨(j, off), (j, off), true⟩ = ⟨o, o⟩ := by
  obtain ⟨hj, hsum⟩ := findLeaf_sound leaves o j off hfind
  have h := captureLoop_hit leaves j off 0 0 hj
  simp only [Nat.zero_add] at h
  unfold getCaretOffsetWithin
  rw [h]
  simp [hsum]

theorem c1_roundtrip_offset_witness :
    3 ≤ sumLens ["ab", "cd"] ∧
    findLeaf ["ab", "cd"] 3 = some (1, 1) ∧
    getCaretOffsetWithin ["ab", "cd"] ⟨(1, 1), (1, 1), true⟩ = ⟨3, 3⟩ :=
  ⟨by decide, by decide,
    c1_roundtrip_offset ["ab", "cd"] 3 1 1 (by decide) (by decide)⟩

/-- C2: evaluation of `onPaste` at the claim's own example (paste `"!"` into
`"hello world"` with a collapsed caret at offset 5).  The splice and the
caret request happen as claimed, but `trigger('change', _this)` reads the
undeclared `_this` and throws, so the change callback never fires and
`e.preventDefault()` is never reached — `changeFired = false`,
`prevented = false`, `errored = true`. -/
theorem c2_paste_throws :
    onPaste (some "!") "hello world".data ⟨5, 5⟩ =
      ⟨"hello! world".data, "hello! world".data, some 6, false, false, true, true⟩ := by
  simp +decide [onPaste, highlightMarkup, applyRegexs, rule1, rule2, rule3, scanReplace,
    hashtagTry, urlTry, urlProto, urlWithS, urlCont, urlAfterSlash, mentionTry, escapeHTML, replaceAllChar, innerTextOf,
    takeRun, matchCi, httpPat, slashPat, takeDotGroups, trimToLastB, isJsWs, isWordChar,
    isTagWordChar, isHostChar, isUrlA, isUrlB, isSpecialChar, String.data]

/-- C3: evaluation of construction followed by two `destroy()` calls.  All
three construction-time listeners are still registered afterwards (the
`removeEventListener` calls pass freshly bound functions and the `keypress`
listener is never removed at all), and the `destroy` subscription has fired
twice, not once. -/
theorem c3_destroy_defect :
    destroyCall (destroyCall (constructWire ⟨⟨false, [], []⟩, 0, 0⟩)) =
      ⟨⟨false, [], [("paste", 0), ("input", 1), ("keypress", 2)]⟩, 7, 2⟩ := by
  decide

/-- C5 counterexample: for pre-event logical text `"a<b>c"` (markup
`"a&lt;b&gt;c"`) with a collapsed caret at offset 1, the line-break handler
does not splice `"\r\n"` into the logical text: writing the raw
`innerText` back through `innerHTML` re-interprets `<b>` as markup, so the
resulting logical text is `"a\r\nc"` rather than the spliced
`"a\r\n<b>c"`. -/
theorem c5_counterexample :
    (onKeyPress 13 "a&lt;b&gt;c".data ⟨1, 1⟩).text = "a\r\nc".data ∧
    (onKeyPress 13 "a&lt;b&gt;c".data ⟨1, 1⟩).text ≠
      (innerTextOf "a&lt;b&gt;c".data).take 1 ++ "\r\n".data ++
        (innerTextOf "a&lt;b&gt;c".data).drop 1 := by
  simp +decide [onKeyPress, highlightMarkup, applyRegexs, rule1, rule2, rule3, scanReplace,
    hashtagTry, urlTry, urlProto, urlWithS, urlCont, urlAfterSlash, mentionTry, escapeHTML, replaceAllChar, innerTextOf,
    takeRun, matchCi, httpPat, slashPat, takeDotGroups, trimToLastB, isJsWs, isWordChar,
    isTagWordChar, isHostChar, isUrlA, isUrlB, isSpecialChar, String.data]

/-- C6: `setCaretPositionWithin` raises the invalid-index error exactly when
the argument is not a non-negative integer (non-number, non-integral number,
or negative integer), and a raising call leaves the active selection
unchanged. -/
theorem c6_invalid_offset (leaves : List String) (v : JsArg) :
    (setCaretPositionWithin leaves v = .error "Invalid index parameter" ↔
      ¬ ∃ n : Int, v = JsArg.int n ∧ 0 ≤ n) ∧
    (¬(∃ n : Int, v = JsArg.int n ∧ 0 ≤ n) →
      ∀ st, applyCaretCall st leaves v = st) := by
  constructor
  · cases v with
    | int n =>
      by_cases hn : 0 ≤ n
      · simp [setCaretPositionWithin, isNumber, argGeZero, hn]
      · simp [setCaretPositionWithin, isNumber, argGeZero, hn]
    | nonIntegralNum => simp [setCaretPositionWithin, isNumber]
    | nonNum => simp [setCaretPositionWithin, isNumber]
  · intro hinv st
    cases v with
    | int n =>
      by_cases hn : 0 ≤ n
      · exact absurd ⟨n, rfl, hn⟩ hinv
      · simp [applyCaretCall, setCaretPositionWithin, isNumber, argGeZero, hn]
    | nonIntegralNum => simp [applyCaretCall, setCaretPositionWithin, isNumber]
    | nonNum => simp [applyCaretCall, setCaretPositionWithin, isNumber]

theorem c6_invalid_offset_witness :
    setCaretPositionWithin ["ab"] (JsArg.int (-2)) = .error "Invalid index parameter" ∧
    applyCaretCall (some (0, 1)) ["ab"] (JsArg.int (-2)) = some (0, 1) :=
  ⟨(c6_invalid_offset ["ab"] (JsArg.int (-2))).1.mpr
      (by rintro ⟨n, hn, hge⟩; cases hn; omega),
    (c6_invalid_offset ["ab"] (JsArg.int (-2))).2
      (by rintro ⟨n, hn, hge⟩; cases hn; omega) (some (0, 1))⟩

/-- C7: `on(eventName, handler)` fails with the unsupported-event error for
every name other than `change`/`destroy` (checked before the handler), fails
with the invalid-handler error for non-callable handlers on recognized
names, stores the handler on success, and replaces a previously stored
handler (last-write-wins). -/
theorem c7_subscription :
    (∀ (ev : Events) (cb : Cb) (name : String), name ≠ "change" → name ≠ "destroy" →
      attachEvent ev name cb = .error (.unsupported name)) ∧
    (∀ (ev : Events) (name : String), (name = "change" ∨ name = "destroy") →
      attachEvent ev name .notFn = .error .invalidHandler) ∧
    (∀ (ev : Events) (a : Nat), attachEvent ev "change" (.fn a) = .ok ⟨some a, ev.destroy⟩) ∧
    (∀ (ev : Events) (a : Nat), attachEvent ev "destroy" (.fn a) = .ok ⟨ev.change, some a⟩) ∧
    (∀ (a b : Nat) (d : Option Nat),
      attachEvent ⟨some a, d⟩ "change" (.fn b) = .ok ⟨some b, d⟩) := by
  refine ⟨?_, ?_, ?_, ?_, ?_⟩
  · intro ev cb name h1 h2
    simp [attachEvent, h1, h2]
  · intro ev name h
    rcases h with rfl | rfl <;> simp [attachEvent]
  · intro ev a; simp [attachEvent]
  · intro ev a; simp [attachEvent]
  · intro a b d; simp [attachEvent]

theorem c7_subscription_witness :
    attachEvent ⟨none, none⟩ "foo" (.fn 1) = .error (.unsupported "foo") ∧
    attachEvent ⟨none, none⟩ "change" .notFn = .error .invalidHandler ∧
    attachEvent ⟨some 4, none⟩ "change" (.fn 7) = .ok ⟨some 7, none⟩ :=
  ⟨c7_subscription.1 ⟨none, none⟩ (.fn 1) "foo" (by decide) (by decide),
    c7_subscription.2.1 ⟨none, none⟩ "change" (Or.inl rfl),
    c7_subscription.2.2.2.2 4 7 none⟩

/-- C8: a paste event with no retrievable clipboard payload (and likewise an
empty-string payload, which is equally falsy) mutates nothing, does not
re-render, raises no error, fires no change notification, and still
suppresses the default paste action. -/
theorem c8_no_payload (markup0 : List Char) (pos : Pos) :
    onPaste none markup0 pos =
      ⟨markup0, innerTextOf markup0, none, false, true, false, false⟩ ∧
    onPaste (some "") markup0 pos =
      ⟨markup0, innerTextOf markup0, none, false, true, false, false⟩ := by
  constructor <;> rfl

/-- C9: the settings object is a single module-level value mutated at each
construction: after constructing a new instance with a `regexs` override,
every instance index — including any instance constructed earlier — sees the
overridden rule list. -/
theorem c9_shared_settings (m : ModuleState) (o : OptionsM) (rs : List RuleId)
    (idx : Nat) (hidx : idx < m.constructedCount) (hrs : o.regexs = some rs) :
    rulesSeenBy (constructInstance m o) idx = rs ∧
    rulesSeenBy m idx = m.settings.regexs := by
  constructor
  · simp [rulesSeenBy, constructInstance, extend, hrs]
  · rfl

theorem c9_shared_settings_witness :
    (0 : Nat) < (ModuleState.mk defaultSettings 1).constructedCount ∧
    rulesSeenBy (constructInstance ⟨defaultSettings, 1⟩ ⟨none, none, some [.custom 0]⟩) 0 =
      [RuleId.custom 0] :=
  ⟨by decide,
    (c9_shared_settings ⟨defaultSettings, 1⟩ ⟨none, none, some [.custom 0]⟩
      [RuleId.custom 0] 0 (by decide) rfl).1⟩

/-- C10: a valid non-negative integer offset strictly greater than the
logical-text length makes the leaf walk exhaust without placing the caret:
the call returns without error, performs no clamping, and leaves the active
selection unchanged. -/
theorem c10_offset_beyond_length (leaves : List String) (n : Int)
    (h : (sumLens leaves : Int) < n) :
    setCaretPositionWithin leaves (.int n) = .ok none ∧
    ∀ st, applyCaretCall st leaves (.int n) = st := by
  have hn0 : 0 ≤ n := by omega
  have hlt : sumLens leaves < n.toNat := by omega
  have hfind := findLeaf_none leaves n.toNat hlt
  constructor
  · simp [setCaretPositionWithin, isNumber, argGeZero, argToNat, hn0, hfind]
  · intro st
    simp [applyCaretCall, setCaretPositionWithin, isNumber, argGeZero, argToNat, hn0, hfind]

theorem c10_offset_beyond_length_witness :
    (sumLens ["ab"] : Int) < 3 ∧
    setCaretPositionWithin ["ab"] (.int 3) = .ok none ∧
    applyCaretCall (some (0, 1)) ["ab"] (.int 3) = some (0, 1) :=
  ⟨by decide,
    (c10_offset_beyond_length ["ab"] 3 (by decide)).1,
    (c10_offset_beyond_length ["ab"] 3 (by decide)).2 (some (0, 1))⟩

/-! ## Character-level expansions of the entity and fragment literals -/

theorem entAmp_eq : "&amp;".data = ['&', 'a', 'm', 'p', ';'] := rfl
theorem entLt_eq : "&lt;".data = ['&', 'l', 't', ';'] := rfl
theorem entGt_eq : "&gt;".data = ['&', 'g', 't', ';'] := rfl
theorem entQuot_eq : "&quot;".data = ['&', 'q', 'u', 'o', 't', ';'] := rfl
theorem entApos_eq : "&#039;".data = ['&', '#', '0', '3', '9', ';'] := rfl

theorem hashtagOpen_eq :
    hashtagOpen = ['<', 's', 'p', 'a', 'n', ' ', 'c', 'l', 'a', 's', 's', '=', '"',
      'h', 'a', 's', 'h', 't', 'a', 'g', '"', '>'] := rfl
theorem urlOpen_eq :
    urlOpen = ['<', 's', 'p', 'a', 'n', ' ', 'c', 'l', 'a', 's', 's', '=', '"',
      'u', 'r', 'l', '"', '>'] := rfl
theorem mentionOpen_eq :
    mentionOpen = ['<', 's', 'p', 'a', 'n', ' ', 'c', 'l', 'a', 's', 's', '=', '"',
      'm', 'e', 'n', 't', 'i', 'o', 'n', '"', '>'] := rfl
theorem spanClose_eq : spanClose = ['<', '/', 's', 'p', 'a', 'n', '>'] := rfl

/-! ## Basic lemmas about `Blocks` -/

theorem blocks_inv (s : List Char) (h : Blocks s) :
    s = [] ∨
    (∃ c rest, s = c :: rest ∧ isSpecialChar c = false ∧ Blocks rest) ∨
    (∃ e rest, s = e ++ rest ∧ e ∈ entityList ∧ Blocks rest) ∨
    (∃ f rest, s = f ++ rest ∧ f ∈ fragList ∧ Blocks rest) := by
  cases h with
  | nil => exact Or.inl rfl
  | safe c rest hc hb => exact Or.inr (Or.inl ⟨c, rest, rfl, hc, hb⟩)
  | ent e rest hm hb => exact Or.inr (Or.inr (Or.inl ⟨e, rest, rfl, hm, hb⟩))
  | frag f rest hm hb => exact Or.inr (Or.inr (Or.inr ⟨f, rest, rfl, hm, hb⟩))

theorem blocks_cons_inv (x : Char) (l : List Char) (h : Blocks (x :: l))
    (h1 : x ≠ '&') (h2 : x ≠ '<') : isSpecialChar x = false ∧ Blocks l := by
  rcases blocks_inv _ h with heq | ⟨c, rest, heq, hc, hb⟩ |
    ⟨e, rest, heq, hm, hb⟩ | ⟨f, rest, heq, hm, hb⟩
  · exact absurd heq (by simp)
  · obtain ⟨rfl, rfl⟩ : c = x ∧ rest = l := by
      constructor <;> injection heq <;> simp_all
    exact ⟨hc, hb⟩
  · exfalso
    simp only [entityList, List.mem_cons, List.not_mem_nil, or_false] at hm
    rcases hm with rfl | rfl | rfl | rfl | rfl <;>
      simp [entAmp_eq, entLt_eq, entGt_eq, entQuot_eq, entApos_eq] at heq <;>
      exact h1 heq.1
  · exfalso
    simp only [fragList, List.mem_cons, List.not_mem_nil, or_false] at hm
    rcases hm with rfl | rfl | rfl | rfl <;>
      simp [hashtagOpen_eq, urlOpen_eq, mentionOpen_eq, spanClose_eq] at heq <;>
      exact h2 heq.1

theorem blocks_append (a : List Char) (b : List Char) (ha : Blocks a) (hb : Blocks b) :
    Blocks (a ++ b) := by
  induction ha with
  | nil => simpa using hb
  | safe c rest hc _ ih => exact Blocks.safe c (rest ++ b) hc ih
  | ent e rest hm _ ih =>
    rw [List.append_assoc]
    exact Blocks.ent e (rest ++ b) hm ih
  | frag f rest hm _ ih =>
    rw [List.append_assoc]
    exact Blocks.frag f (rest ++ b) hm ih

theorem safe_blocks (l : List Char) (h : ∀ c ∈ l, isSpecialChar c = false) : Blocks l := by
  induction l with
  | nil => exact Blocks.nil
  | cons c rest ih =>
    exact Blocks.safe c rest (h c (by simp)) (ih (fun d hd => h d (by simp [hd])))

theorem blocks_single_ent (e : List Char) (hm : e ∈ entityList) : Blocks e := by
  have h := Blocks.ent e [] hm Blocks.nil
  simpa using h

theorem blocks_single_frag (f : List Char) (hm : f ∈ fragList) : Blocks f := by
  have h := Blocks.frag f [] hm Blocks.nil
  simpa using h

/-! ## `innerTextOf` unfolding lemmas -/

theorem dropWhile_append_all {p : Char → Bool} :
    ∀ (v w : List Char), (∀ c ∈ v, p c = true) → (v ++ w).dropWhile p = w.dropWhile p := by
  intro v
  induction v with
  | nil => intro w _; rfl
  | cons c v' ih =>
    intro w h
    rw [List.cons_append, List.dropWhile_cons, if_pos (h c (by simp))]
    exact ih w (fun d hd => h d (by simp [hd]))

theorem innerTextOf_nil : innerTextOf [] = [] := by
  simp [innerTextOf]

theorem innerTextOf_safe_cons (c : Char) (r : List Char) (h : isSpecialChar c = false) :
    innerTextOf (c :: r) = c :: innerTextOf r := by
  have h1 : ¬(c = '<') := by simp [isSpecialChar] at h; tauto
  have h2 : ¬(c = '&') := by simp [isSpecialChar] at h; tauto
  rw [innerTextOf]
  rw [if_neg h1, if_neg h2]

/-- Decoded text of a block: a safe character stands for itself, an entity
for the character it encodes, a fragment for nothing. -/
def entDecode (e : List Char) : List Char :=
  if e = "&amp;".data then ['&']
  else if e = "&lt;".data then ['<']
  else if e = "&gt;".data then ['>']
  else if e = "&quot;".data then ['"']
  else if e = "&#039;".data then ['\'']
  else []

theorem tAmp_eq : "amp;".data = ['a', 'm', 'p', ';'] := rfl
theorem tLt_eq : "lt;".data = ['l', 't', ';'] := rfl
theorem tGt_eq : "gt;".data = ['g', 't', ';'] := rfl
theorem tQuot_eq : "quot;".data = ['q', 'u', 'o', 't', ';'] := rfl
theorem tApos_eq : "#039;".data = ['#', '0', '3', '9', ';'] := rfl

theorem innerTextOf_ent (e : List Char) (hm : e ∈ entityList) (r : List Char) :
    innerTextOf (e ++ r) = entDecode e ++ innerTextOf r := by
  simp only [entityList, List.mem_cons, List.not_mem_nil, or_false] at hm
  rcases hm with rfl | rfl | rfl | rfl | rfl
  all_goals
    rw [innerTextOf.eq_def]
    simp +decide [entDecode, entAmp_eq, entLt_eq, entGt_eq, entQuot_eq, entApos_eq,
      tAmp_eq, tLt_eq, tGt_eq, tQuot_eq, tApos_eq, List.isPrefixOf, List.cons_append]

theorem innerTextOf_frag (f : List Char) (hm : f ∈ fragList) (r : List Char) :
    innerTextOf (f ++ r) = innerTextOf r := by
  simp only [fragList, List.mem_cons, List.not_mem_nil, or_false] at hm
  rcases hm with rfl | rfl | rfl | rfl
  all_goals
    rw [innerTextOf.eq_def]
    simp +decide [hashtagOpen_eq, urlOpen_eq, mentionOpen_eq, spanClose_eq,
      List.dropWhile_cons, List.cons_append]

theorem innerTextOf_blocks_append (a : List Char) (ha : Blocks a) :
    ∀ b, innerTextOf (a ++ b) = innerTextOf a ++ innerTextOf b := by
  induction ha with
  | nil => intro b; simp [innerTextOf_nil]
  | safe c rest hc _ ih =>
    intro b
    rw [List.cons_append, innerTextOf_safe_cons c _ hc, innerTextOf_safe_cons c _ hc, ih b]
    simp
  | ent e rest hm _ ih =>
    intro b
    rw [List.append_assoc, innerTextOf_ent e hm, innerTextOf_ent e hm, ih b]
    simp
  | frag f rest hm _ ih =>
    intro b
    rw [List.append_assoc, innerTextOf_frag f hm, innerTextOf_frag f hm, ih b]

theorem innerTextOf_all_safe (l : List Char) (h : ∀ c ∈ l, isSpecialChar c = false) :
    innerTextOf l = l := by
  induction l with
  | nil => exact innerTextOf_nil
  | cons c rest ih =>
    rw [innerTextOf_safe_cons c rest (h c (by simp)),
      ih (fun d hd => h d (by simp [hd]))]

/-! ## `escapeHTML` lemmas -/

theorem replaceAllChar_append (c : Char) (r : List Char) :
    ∀ (a b : List Char), replaceAllChar c r (a ++ b) =
      replaceAllChar c r a ++ replaceAllChar c r b := by
  intro a
  induction a with
  | nil => intro b; rfl
  | cons x xs ih =>
    intro b
    simp only [List.cons_append, replaceAllChar, List.append_eq, ih b, List.append_assoc]

theorem escapeHTML_cons (c : Char) (t : List Char) :
    escapeHTML (c :: t) = escapeChar c ++ escapeHTML t := by
  show replaceAllChar '\'' _ (replaceAllChar '"' _ (replaceAllChar '>' _
    (replaceAllChar '<' _ (replaceAllChar '&' _ (c :: t))))) = _
  rw [show replaceAllChar '&' "&amp;".data (c :: t) =
      (if c = '&' then "&amp;".data else [c]) ++ replaceAllChar '&' "&amp;".data t from rfl]
  rw [replaceAllChar_append, replaceAllChar_append, replaceAllChar_append,
    replaceAllChar_append]
  congr 1
  by_cases h1 : c = '&'
  · subst h1; decide
  by_cases h2 : c = '<'
  · subst h2; decide
  by_cases h3 : c = '>'
  · subst h3; decide
  by_cases h4 : c = '"'
  · subst h4; decide
  by_cases h5 : c = '\''
  · subst h5; decide
  simp [escapeChar, replaceAllChar, h1, h2, h3, h4, h5]

theorem escapeHTML_nil : escapeHTML [] = [] := rfl

theorem escape_blocks (t : List Char) : Blocks (escapeHTML t) := by
  induction t with
  | nil => rw [escapeHTML_nil]; exact Blocks.nil
  | cons c rest ih =>
    rw [escapeHTML_cons]
    by_cases h1 : c = '&'
    · subst h1; exact Blocks.ent _ _ (by decide) ih
    by_cases h2 : c = '<'
    · subst h2; exact Blocks.ent _ _ (by decide) ih
    by_cases h3 : c = '>'
    · subst h3; exact Blocks.ent _ _ (by decide) ih
    by_cases h4 : c = '"'
    · subst h4; exact Blocks.ent _ _ (by decide) ih
    by_cases h5 : c = '\''
    · subst h5; exact Blocks.ent _ _ (by decide) ih
    · have hc : isSpecialChar c = false := by
        simp [isSpecialChar, h1, h2, h3, h4, h5]
      rw [show escapeChar c = [c] from by simp [escapeChar, h1, h2, h3, h4, h5]]
      exact Blocks.safe c _ hc ih

theorem escape_all_safe (t : List Char) (h : ∀ c ∈ t, isSpecialChar c = false) :
    escapeHTML t = t := by
  induction t with
  | nil => rfl
  | cons c rest ih =>
    rw [escapeHTML_cons]
    have hc := h c (by simp)
    have : escapeChar c = [c] := by
      simp [isSpecialChar] at hc
      simp [escapeChar, hc.1, hc.2.1, hc.2.2.1, hc.2.2.2.1, hc.2.2.2.2]
    rw [this, ih (fun d hd => h d (by simp [hd]))]
    rfl

/-! ## Block-aware lemmas about the matcher building blocks -/

theorem entity_head (e : List Char) (hm : e ∈ entityList) : ∃ t, e = '&' :: t := by
  simp only [entityList, List.mem_cons, List.not_mem_nil, or_false] at hm
  rcases hm with rfl | rfl | rfl | rfl | rfl
  · exact ⟨_, entAmp_eq⟩
  · exact ⟨_, entLt_eq⟩
  · exact ⟨_, entGt_eq⟩
  · exact ⟨_, entQuot_eq⟩
  · exact ⟨_, entApos_eq⟩

theorem frag_head (f : List Char) (hm : f ∈ fragList) : ∃ t, f = '<' :: t := by
  simp only [fragList, List.mem_cons, List.not_mem_nil, or_false] at hm
  rcases hm with rfl | rfl | rfl | rfl
  · exact ⟨_, hashtagOpen_eq⟩
  · exact ⟨_, urlOpen_eq⟩
  · exact ⟨_, mentionOpen_eq⟩
  · exact ⟨_, spanClose_eq⟩

theorem takeRun_all (p : Char → Bool) :
    ∀ (v w : List Char), (∀ c ∈ v, p c = true) →
      takeRun p (v ++ w) = (v ++ (takeRun p w).1, (takeRun p w).2) := by
  intro v
  induction v with
  | nil => intro w _; simp
  | cons c v' ih =>
    intro w h
    rw [List.cons_append, takeRun, if_pos (h c (by simp)), ih w (fun d hd => h d (by simp [hd]))]
    simp

theorem takeRun_blocks_safe (p : Char → Bool) (hamp : p '&' = false) (hlt : p '<' = false) :
    ∀ (s : List Char), Blocks s →
      (∀ c ∈ (takeRun p s).1, p c = true ∧ isSpecialChar c = false) ∧
      Blocks (takeRun p s).2 ∧ s = (takeRun p s).1 ++ (takeRun p s).2 := by
  intro s hs
  induction hs with
  | nil => exact ⟨by simp [takeRun], Blocks.nil, by simp [takeRun]⟩
  | safe c rest hc hb ih =>
    by_cases hp : p c
    · obtain ⟨ih1, ih2, ih3⟩ := ih
      refine ⟨?_, ?_, ?_⟩
      · intro d hd
        rw [takeRun, if_pos hp] at hd
        simp only [List.mem_cons] at hd
        rcases hd with rfl | hd
        · exact ⟨hp, hc⟩
        · exact ih1 d hd
      · rw [takeRun, if_pos hp]; exact ih2
      · rw [takeRun, if_pos hp]
        simpa using congrArg (c :: ·) ih3
    · rw [takeRun, if_neg hp]
      exact ⟨by simp, Blocks.safe c rest hc hb, by simp⟩
  | ent e rest hm hb ih =>
    obtain ⟨t, rfl⟩ := entity_head e hm
    rw [List.cons_append, takeRun]
    rw [if_neg (by simp [hamp])]
    exact ⟨by simp, Blocks.ent _ rest hm hb, by simp⟩
  | frag f rest hm hb ih =>
    obtain ⟨t, rfl⟩ := frag_head f hm
    rw [List.cons_append, takeRun]
    rw [if_neg (by simp [hlt])]
    exact ⟨by simp, Blocks.frag _ rest hm hb, by simp⟩

theorem ent_all_isUrlA : ∀ e ∈ entityList, ∀ c ∈ e, isUrlA c = true := by decide

theorem ent_all_isUrlB : ∀ e ∈ entityList, ∀ c ∈ e, isUrlB c = true := by decide

theorem takeRun_isUrlA_blocks :
    ∀ (s : List Char), Blocks s →
      ARun (takeRun isUrlA s).1 ∧ Blocks (takeRun isUrlA s).2 ∧
      s = (takeRun isUrlA s).1 ++ (takeRun isUrlA s).2 := by
  intro s hs
  induction hs with
  | nil => exact ⟨ARun.nil, Blocks.nil, by simp [takeRun]⟩
  | safe c rest hc hb ih =>
    by_cases hp : isUrlA c
    · obtain ⟨ih1, ih2, ih3⟩ := ih
      refine ⟨?_, ?_, ?_⟩
      · rw [takeRun, if_pos hp]
        exact ARun.safe c _ hc hp ih1
      · rw [takeRun, if_pos hp]; exact ih2
      · rw [takeRun, if_pos hp]
        simpa using congrArg (c :: ·) ih3
    · rw [takeRun, if_neg hp]
      exact ⟨ARun.nil, Blocks.safe c rest hc hb, by simp⟩
  | ent e rest hm hb ih =>
    obtain ⟨ih1, ih2, ih3⟩ := ih
    rw [takeRun_all isUrlA e rest (ent_all_isUrlA e hm)]
    exact ⟨ARun.ent e _ hm ih1, ih2, by simp [List.append_assoc]; exact ih3⟩
  | frag f rest hm hb ih =>
    obtain ⟨t, rfl⟩ := frag_head f hm
    rw [List.cons_append, takeRun]
    rw [if_neg (by decide)]
    exact ⟨ARun.nil, Blocks.frag _ rest hm hb, by simp⟩

theorem arun_blocks (a : List Char) (h : ARun a) : Blocks a := by
  induction h with
  | nil => exact Blocks.nil
  | safe c rest hc hp _ ih => exact Blocks.safe c rest hc ih
  | ent e rest hm _ ih => exact Blocks.ent e rest hm ih

theorem trim_all_B :
    ∀ (v w : List Char), (∀ c ∈ v, isUrlB c = true) →
      trimToLastB (v ++ w) = v ++ trimToLastB w := by
  intro v
  induction v with
  | nil => intro w _; rfl
  | cons c v' ih =>
    intro w h
    rw [List.cons_append, trimToLastB, ih w (fun d hd => h d (by simp [hd]))]
    by_cases he : (v' ++ trimToLastB w).isEmpty
    · rw [if_pos he]
      simp only [List.isEmpty_eq_true, List.append_eq_nil] at he
      obtain ⟨rfl, he2⟩ := he
      rw [if_pos (h c (by simp))]
      simp [he2]
    · rw [if_neg he, List.cons_append]

theorem trim_arun :
    ∀ (a : List Char), ARun a →
      Blocks (trimToLastB a) ∧
      ∃ dropped, a = trimToLastB a ++ dropped ∧
        ∀ c ∈ dropped, isSpecialChar c = false ∧ isUrlB c = false := by
  intro a ha
  induction ha with
  | nil => exact ⟨Blocks.nil, [], rfl, by simp⟩
  | safe c rest hc hp _ ih =>
    obtain ⟨hb', dropped', hsplit, hdrop⟩ := ih
    by_cases ht : (trimToLastB rest).isEmpty
    · simp only [List.isEmpty_eq_true] at ht
      rw [ht] at hsplit
      simp only [List.nil_append] at hsplit
      by_cases hB : isUrlB c
      · refine ⟨?_, dropped', ?_, hdrop⟩
        · rw [trimToLastB, if_pos (by simp [ht]), if_pos hB]
          exact Blocks.safe c [] hc Blocks.nil
        · rw [trimToLastB, if_pos (by simp [ht]), if_pos hB]
          simpa using hsplit
      · refine ⟨?_, c :: dropped', ?_, ?_⟩
        · rw [trimToLastB, if_pos (by simp [ht]), if_neg hB]
          exact Blocks.nil
        · rw [trimToLastB, if_pos (by simp [ht]), if_neg hB]
          simpa using hsplit
        · intro d hd
          simp only [List.mem_cons] at hd
          rcases hd with rfl | hd
          · exact ⟨hc, by simpa using hB⟩
          · exact hdrop d hd
    · refine ⟨?_, dropped', ?_, hdrop⟩
      · rw [trimToLastB, if_neg ht]
        exact Blocks.safe c _ hc hb'
      · rw [trimToLastB, if_neg ht]
        rw [List.cons_append]
        exact congrArg (c :: ·) hsplit
  | ent e rest hm _ ih =>
    obtain ⟨hb', dropped', hsplit, hdrop⟩ := ih
    rw [trim_all_B e rest (ent_all_isUrlB e hm)]
    refine ⟨Blocks.ent e _ hm hb', dropped', ?_, hdrop⟩
    rw [List.append_assoc]
    exact congrArg (e ++ ·) hsplit

theorem takeDotGroups_nil : takeDotGroups [] = ([], []) := by
  rw [takeDotGroups.eq_def]

theorem takeDotGroups_cons (c : Char) (r : List Char) :
    takeDotGroups (c :: r) =
      if c = '.' then
        if (takeRun isHostChar r).1.isEmpty then ([], c :: r)
        else (c :: ((takeRun isHostChar r).1 ++ (takeDotGroups (takeRun isHostChar r).2).1),
              (takeDotGroups (takeRun isHostChar r).2).2)
      else ([], c :: r) := by
  rw [takeDotGroups.eq_def]


theorem takeDotGroups_cons_dot (r : List Char)
    (hemp : ¬(takeRun isHostChar r).1.isEmpty = true) :
    takeDotGroups ('.' :: r) =
      ('.' :: ((takeRun isHostChar r).1 ++ (takeDotGroups (takeRun isHostChar r).2).1),
       (takeDotGroups (takeRun isHostChar r).2).2) := by
  rw [takeDotGroups_cons, if_pos rfl, if_neg hemp]

theorem takeDotGroups_cons_stop (c : Char) (r : List Char)
    (h : ¬ c = '.' ∨ (takeRun isHostChar r).1.isEmpty = true) :
    takeDotGroups (c :: r) = ([], c :: r) := by
  rcases h with h | h
  · rw [takeDotGroups_cons, if_neg h]
  · rw [takeDotGroups_cons]
    by_cases hc : c = '.'
    · rw [if_pos hc, if_pos h]
    · rw [if_neg hc]

theorem takeDotGroups_blocks :
    ∀ (n : Nat) (s : List Char), s.length ≤ n → Blocks s →
      (∀ c ∈ (takeDotGroups s).1, isSpecialChar c = false) ∧
      Blocks (takeDotGroups s).2 ∧ s = (takeDotGroups s).1 ++ (takeDotGroups s).2 := by
  intro n
  induction n with
  | zero =>
    intro s hlen hb
    have : s = [] := by cases s <;> simp_all
    subst this
    exact ⟨by simp [takeDotGroups_nil], by rw [takeDotGroups_nil]; exact Blocks.nil,
      by simp [takeDotGroups_nil]⟩
  | succ n ih =>
    intro s hlen hb
    cases s with
    | nil =>
      exact ⟨by simp [takeDotGroups_nil], by rw [takeDotGroups_nil]; exact Blocks.nil,
        by simp [takeDotGroups_nil]⟩
    | cons c r =>
      by_cases hstop : ¬ c = '.' ∨ (takeRun isHostChar r).1.isEmpty = true
      · rw [takeDotGroups_cons_stop c r hstop]
        exact ⟨by simp, hb, by simp⟩
      · push_neg at hstop
        obtain ⟨hdot, hemp⟩ := hstop
        subst hdot
        have hemp' : ¬(takeRun isHostChar r).1.isEmpty = true := by simpa using hemp
        obtain ⟨hdotSafe, hbr⟩ := blocks_cons_inv '.' r hb (by decide) (by decide)
        obtain ⟨hrun, hb2, hsplit⟩ :=
          takeRun_blocks_safe isHostChar (by decide) (by decide) r hbr
        have hlen2 : (takeRun isHostChar r).2.length ≤ n := by
          have := takeRunSndLen isHostChar r
          simp only [List.length_cons] at hlen
          omega
        obtain ⟨ihc, ihb, ihsplit⟩ := ih (takeRun isHostChar r).2 hlen2 hb2
        rw [takeDotGroups_cons_dot r hemp']
        refine ⟨?_, ihb, ?_⟩
        · intro d hd
          replace hd : d ∈ '.' :: ((takeRun isHostChar r).1 ++
              (takeDotGroups (takeRun isHostChar r).2).1) := hd
          simp only [List.mem_cons, List.mem_append] at hd
          rcases hd with rfl | hd | hd
          · decide
          · exact (hrun d hd).2
          · exact ihc d hd
        · show '.' :: r = '.' :: ((takeRun isHostChar r).1 ++
              (takeDotGroups (takeRun isHostChar r).2).1) ++
              (takeDotGroups (takeRun isHostChar r).2).2
          have : r = (takeRun isHostChar r).1 ++
              ((takeDotGroups (takeRun isHostChar r).2).1 ++
                (takeDotGroups (takeRun isHostChar r).2).2) := by
            rw [← ihsplit]; exact hsplit
          simp only [List.cons_append, List.append_assoc]
          exact congrArg ('.' :: ·) this

theorem matchCi_blocks :
    ∀ (pat : List (Char × Char)),
      (∀ pr ∈ pat, isSpecialChar pr.1 = false ∧ isSpecialChar pr.2 = false) →
      ∀ (s a b : List Char), Blocks s → matchCi pat s = some (a, b) →
        (∀ c ∈ a, isSpecialChar c = false) ∧ Blocks b ∧ s = a ++ b ∧
        a.length = pat.length := by
  intro pat
  induction pat with
  | nil =>
    intro _ s a b hb hm
    simp only [matchCi, Option.some.injEq, Prod.mk.injEq] at hm
    obtain ⟨rfl, rfl⟩ := hm
    exact ⟨by simp, hb, by simp, by simp⟩
  | cons pr ps ih =>
    intro hpat s a b hb hm
    obtain ⟨x, y⟩ := pr
    cases s with
    | nil => simp [matchCi] at hm
    | cons c cs =>
      rw [matchCi] at hm
      by_cases hc : c = x ∨ c = y
      · rw [if_pos hc] at hm
        rcases hmc : matchCi ps cs with _ | ⟨a', b'⟩
        · rw [hmc] at hm; simp at hm
        · rw [hmc] at hm
          simp only [Option.some.injEq, Prod.mk.injEq] at hm
          obtain ⟨rfl, rfl⟩ := hm
          have hcsafe : isSpecialChar c = false := by
            have hh := hpat (x, y) (by simp)
            rcases hc with rfl | rfl
            · exact hh.1
            · exact hh.2
          have hne1 : c ≠ '&' := by
            intro hcc; subst hcc; simp [isSpecialChar] at hcsafe
          have hne2 : c ≠ '<' := by
            intro hcc; subst hcc; simp [isSpecialChar] at hcsafe
          obtain ⟨-, hbcs⟩ := blocks_cons_inv c cs hb hne1 hne2
          obtain ⟨iha, ihb, ihsplit, ihlen⟩ :=
            ih (fun q hq => hpat q (by simp [hq])) cs a' b' hbcs hmc
          refine ⟨?_, ihb, ?_, ?_⟩
          · intro d hd
            simp only [List.mem_cons] at hd
            rcases hd with rfl | hd
            · exact hcsafe
            · exact iha d hd
          · rw [List.cons_append]
            exact congrArg (c :: ·) ihsplit
          · simp [ihlen]
      · rw [if_neg hc] at hm
        simp at hm


theorem scanReplace_nil (tryAt : Nat → List Char → Option (List Char × Nat)) (i : Nat) :
    scanReplace tryAt i [] = [] := by
  rw [scanReplace.eq_def]

theorem scanReplace_cons (tryAt : Nat → List Char → Option (List Char × Nat))
    (i : Nat) (c : Char) (rest : List Char) :
    scanReplace tryAt i (c :: rest) =
      match tryAt i (c :: rest) with
      | some (rep, n) =>
        if n = 0 then rep ++ c :: scanReplace tryAt (i + 1) rest
        else rep ++ scanReplace tryAt (i + n) (rest.drop (n - 1))
      | none => c :: scanReplace tryAt (i + 1) rest := by
  rw [scanReplace.eq_def]
  all_goals rfl

theorem scanReplace_cons_none (tryAt : Nat → List Char → Option (List Char × Nat))
    (i : Nat) (c : Char) (rest : List Char) (h : tryAt i (c :: rest) = none) :
    scanReplace tryAt i (c :: rest) = c :: scanReplace tryAt (i + 1) rest := by
  rw [scanReplace_cons, h]

theorem scanReplace_cons_some (tryAt : Nat → List Char → Option (List Char × Nat))
    (i : Nat) (c : Char) (rest rep : List Char) (n : Nat)
    (h : tryAt i (c :: rest) = some (rep, n)) (hn : ¬ n = 0) :
    scanReplace tryAt i (c :: rest) =
      rep ++ scanReplace tryAt (i + n) (rest.drop (n - 1)) := by
  rw [scanReplace_cons, h]
  simp only [if_neg hn]

theorem scan_skip (tryAt : Nat → List Char → Option (List Char × Nat)) :
    ∀ (v : List Char) (i : Nat) (r : List Char),
      (∀ k, k < v.length → tryAt (i + k) (v.drop k ++ r) = none) →
      scanReplace tryAt i (v ++ r) = v ++ scanReplace tryAt (i + v.length) r := by
  intro v
  induction v with
  | nil => intro i r _; simp
  | cons c v' ih =>
    intro i r h
    have h0 : tryAt i (c :: (v' ++ r)) = none := by
      have h1 := h 0 (by simp)
      simpa using h1
    have hshift : ∀ k, k < v'.length → tryAt (i + 1 + k) (v'.drop k ++ r) = none := by
      intro k hk
      have h2 := h (k + 1) (by simpa using Nat.succ_lt_succ hk)
      rw [show i + (k + 1) = i + 1 + k from by omega] at h2
      simpa using h2
    rw [List.cons_append, scanReplace_cons_none tryAt i c (v' ++ r) h0,
      ih (i + 1) r hshift,
      show i + 1 + v'.length = i + (c :: v').length from by simp [List.length_cons]; omega]
    simp

theorem hashtagTry_hash_pos (i : Nat) (r : List Char) :
    hashtagTry (i + 1) ('#' :: r) = none := by
  have hz : (i + 1 = 0) = False := by simp
  simp +decide [hashtagTry, isJsWs, hz]

theorem mention_skip_block (v : List Char) (hv : v ∈ entityList ∨ v ∈ fragList)
    (i : Nat) (r : List Char) :
    scanReplace (fun _ t => mentionTry t) i (v ++ r) =
      v ++ scanReplace (fun _ t => mentionTry t) (i + v.length) r := by
  apply scan_skip
  intro k hk
  rcases hv with hv | hv
  · simp only [entityList, List.mem_cons, List.not_mem_nil, or_false] at hv
    rcases hv with rfl | rfl | rfl | rfl | rfl <;>
      simp only [entAmp_eq, entLt_eq, entGt_eq, entQuot_eq, entApos_eq,
        List.length_cons, List.length_nil] at hk ⊢ <;>
      interval_cases k <;>
      simp +decide [mentionTry, List.drop_succ_cons, List.drop_zero, List.cons_append]
  · simp only [fragList, List.mem_cons, List.not_mem_nil, or_false] at hv
    rcases hv with rfl | rfl | rfl | rfl <;>
      simp only [hashtagOpen_eq, urlOpen_eq, mentionOpen_eq, spanClose_eq,
        List.length_cons, List.length_nil] at hk ⊢ <;>
      interval_cases k <;>
      simp +decide [mentionTry, List.drop_succ_cons, List.drop_zero, List.cons_append]

theorem url_skip_block (v : List Char) (hv : v ∈ entityList ∨ v ∈ fragList)
    (i : Nat) (r : List Char) :
    scanReplace (fun _ t => urlTry t) i (v ++ r) =
      v ++ scanReplace (fun _ t => urlTry t) (i + v.length) r := by
  apply scan_skip
  intro k hk
  rcases hv with hv | hv
  · simp only [entityList, List.mem_cons, List.not_mem_nil, or_false] at hv
    rcases hv with rfl | rfl | rfl | rfl | rfl <;>
      simp only [entAmp_eq, entLt_eq, entGt_eq, entQuot_eq, entApos_eq,
        List.length_cons, List.length_nil] at hk ⊢ <;>
      interval_cases k <;>
      simp +decide [urlTry, matchCi, httpPat, List.drop_succ_cons, List.drop_zero,
        List.cons_append]
  · simp only [fragList, List.mem_cons, List.not_mem_nil, or_false] at hv
    rcases hv with rfl | rfl | rfl | rfl <;>
      simp only [hashtagOpen_eq, urlOpen_eq, mentionOpen_eq, spanClose_eq,
        List.length_cons, List.length_nil] at hk ⊢ <;>
      interval_cases k <;>
      simp +decide [urlTry, matchCi, httpPat, List.drop_succ_cons, List.drop_zero,
        List.cons_append]

theorem hashtag_skip_block (v : List Char) (hv : v ∈ entityList ∨ v ∈ fragList)
    (i : Nat) (r : List Char) :
    scanReplace hashtagTry i (v ++ r) =
      v ++ scanReplace hashtagTry (i + v.length) r := by
  apply scan_skip
  intro k hk
  rcases hv with hv | hv
  · simp only [entityList, List.mem_cons, List.not_mem_nil, or_false] at hv
    rcases hv with rfl | rfl | rfl | rfl | rfl <;>
      simp only [entAmp_eq, entLt_eq, entGt_eq, entQuot_eq, entApos_eq,
        List.length_cons, List.length_nil] at hk ⊢ <;>
      interval_cases k <;>
      first
      | exact hashtagTry_hash_pos _ _
      | simp +decide [hashtagTry, isJsWs, List.drop_succ_cons, List.drop_zero,
          List.cons_append]
  · simp only [fragList, List.mem_cons, List.not_mem_nil, or_false] at hv
    rcases hv with rfl | rfl | rfl | rfl <;>
      simp only [hashtagOpen_eq, urlOpen_eq, mentionOpen_eq, spanClose_eq,
        List.length_cons, List.length_nil] at hk ⊢ <;>
      interval_cases k <;>
      simp +decide [hashtagTry, isJsWs, List.drop_succ_cons, List.drop_zero,
        List.cons_append]


theorem mentionOpen_mem : mentionOpen ∈ fragList := by simp [fragList]
theorem hashtagOpen_mem : hashtagOpen ∈ fragList := by simp [fragList]
theorem urlOpen_mem : urlOpen ∈ fragList := by simp [fragList]
theorem spanClose_mem : spanClose ∈ fragList := by simp [fragList]

theorem innerTextOf_spanClose : innerTextOf spanClose = [] := by
  have h := innerTextOf_frag spanClose spanClose_mem []
  simpa [innerTextOf_nil] using h

/-- Replacement shape shared by the three templates: a wrapped chunk of
block-structured content. -/
theorem blocks_wrap (openTag : List Char) (hmo : openTag ∈ fragList)
    (content : List Char) (hbc : Blocks content) :
    Blocks (openTag ++ content ++ spanClose) := by
  rw [List.append_assoc]
  exact Blocks.frag openTag _ hmo
    (blocks_append content spanClose hbc (blocks_single_frag spanClose spanClose_mem))

theorem innerTextOf_wrap (openTag : List Char) (hmo : openTag ∈ fragList)
    (content : List Char) (hbc : Blocks content) :
    innerTextOf (openTag ++ content ++ spanClose) = innerTextOf content := by
  rw [List.append_assoc, innerTextOf_frag openTag hmo,
    innerTextOf_blocks_append content hbc spanClose, innerTextOf_spanClose,
    List.append_nil]

theorem hashtagTry_cons (i : Nat) (c : Char) (r : List Char) :
    hashtagTry i (c :: r) =
      if i = 0 ∧ c = '#' then
        if (takeRun isTagWordChar r).1.isEmpty then none
        else some (hashtagOpen ++ '#' :: (takeRun isTagWordChar r).1 ++ spanClose,
                   1 + (takeRun isTagWordChar r).1.length)
      else if isJsWs c then
        match r with
        | c2 :: r2 =>
          if c2 = '#' then
            if (takeRun isTagWordChar r2).1.isEmpty then none
            else some (c :: (hashtagOpen ++ '#' :: (takeRun isTagWordChar r2).1 ++ spanClose),
                       2 + (takeRun isTagWordChar r2).1.length)
          else none
        | [] => none
      else none := by
  rw [hashtagTry.eq_def]
  all_goals rfl

theorem hashtagTry_ws (i : Nat) (c c2 : Char) (r2 : List Char)
    (h1 : ¬(i = 0 ∧ c = '#')) (h2 : isJsWs c = true) :
    hashtagTry i (c :: c2 :: r2) =
      if c2 = '#' then
        if (takeRun isTagWordChar r2).1.isEmpty then none
        else some (c :: (hashtagOpen ++ '#' :: (takeRun isTagWordChar r2).1 ++ spanClose),
                   2 + (takeRun isTagWordChar r2).1.length)
      else none := by
  rw [hashtagTry_cons, if_neg h1, if_pos h2]

theorem mention_match (c : Char) (rest rep : List Char) (n : Nat)
    (hc : isSpecialChar c = false) (hb : Blocks rest)
    (hm : mentionTry (c :: rest) = some (rep, n)) :
    ∃ mid rest2, c :: rest = mid ++ rest2 ∧ n = mid.length ∧ 1 ≤ n ∧
      Blocks mid ∧ Blocks rest2 ∧ Blocks rep ∧ innerTextOf rep = innerTextOf mid := by
  by_cases hat : c = '@'
  · subst hat
    rw [mentionTry] at hm
    rw [if_pos rfl] at hm
    by_cases hemp : (takeRun isWordChar rest).1.isEmpty
    · rw [if_pos hemp] at hm; exact absurd hm (by simp)
    · rw [if_neg hemp] at hm
      simp only [Option.some.injEq, Prod.mk.injEq] at hm
      obtain ⟨hrep, hn⟩ := hm
      obtain ⟨hrun, hb2, hsplit⟩ :=
        takeRun_blocks_safe isWordChar (by decide) (by decide) rest hb
      have hrunSafe : ∀ d ∈ (takeRun isWordChar rest).1, isSpecialChar d = false :=
        fun d hd => (hrun d hd).2
      have hbrun : Blocks (takeRun isWordChar rest).1 := safe_blocks _ hrunSafe
      have hbmid : Blocks ('@' :: (takeRun isWordChar rest).1) :=
        Blocks.safe _ _ (by decide) hbrun
      refine ⟨'@' :: (takeRun isWordChar rest).1, (takeRun isWordChar rest).2,
        ?_, ?_, ?_, hbmid, hb2, ?_, ?_⟩
      · rw [List.cons_append]
        exact congrArg ('@' :: ·) hsplit
      · simp [← hn, List.length_cons]; omega
      · omega
      · rw [← hrep]
        rw [show mentionOpen ++ '@' :: (takeRun isWordChar rest).1 ++ spanClose =
          mentionOpen ++ ('@' :: (takeRun isWordChar rest).1) ++ spanClose from by simp]
        exact blocks_wrap mentionOpen mentionOpen_mem _ hbmid
      · rw [← hrep]
        rw [show mentionOpen ++ '@' :: (takeRun isWordChar rest).1 ++ spanClose =
          mentionOpen ++ ('@' :: (takeRun isWordChar rest).1) ++ spanClose from by simp]
        exact innerTextOf_wrap mentionOpen mentionOpen_mem _ hbmid
  · rw [mentionTry, if_neg hat] at hm
    exact absurd hm (by simp)

theorem hashtag_match (i : Nat) (c : Char) (rest rep : List Char) (n : Nat)
    (hc : isSpecialChar c = false) (hb : Blocks rest)
    (hm : hashtagTry i (c :: rest) = some (rep, n)) :
    ∃ mid rest2, c :: rest = mid ++ rest2 ∧ n = mid.length ∧ 1 ≤ n ∧
      Blocks mid ∧ Blocks rest2 ∧ Blocks rep ∧ innerTextOf rep = innerTextOf mid := by
  by_cases h1 : i = 0 ∧ c = '#'
  · obtain ⟨hi, hc'⟩ := h1
    subst hc'
    rw [hashtagTry_cons, if_pos ⟨hi, rfl⟩] at hm
    by_cases hemp : (takeRun isTagWordChar rest).1.isEmpty
    · rw [if_pos hemp] at hm; exact absurd hm (by simp)
    · rw [if_neg hemp] at hm
      simp only [Option.some.injEq, Prod.mk.injEq] at hm
      obtain ⟨hrep, hn⟩ := hm
      obtain ⟨hrun, hb2, hsplit⟩ :=
        takeRun_blocks_safe isTagWordChar (by decide) (by decide) rest hb
      have hrunSafe : ∀ d ∈ (takeRun isTagWordChar rest).1, isSpecialChar d = false :=
        fun d hd => (hrun d hd).2
      have hbmid : Blocks ('#' :: (takeRun isTagWordChar rest).1) :=
        Blocks.safe _ _ (by decide) (safe_blocks _ hrunSafe)
      refine ⟨'#' :: (takeRun isTagWordChar rest).1, (takeRun isTagWordChar rest).2,
        ?_, ?_, ?_, hbmid, hb2, ?_, ?_⟩
      · rw [List.cons_append]
        exact congrArg ('#' :: ·) hsplit
      · simp [← hn, List.length_cons]; omega
      · omega
      · rw [← hrep]
        rw [show hashtagOpen ++ '#' :: (takeRun isTagWordChar rest).1 ++ spanClose =
          hashtagOpen ++ ('#' :: (takeRun isTagWordChar rest).1) ++ spanClose from by simp]
        exact blocks_wrap hashtagOpen hashtagOpen_mem _ hbmid
      · rw [← hrep]
        rw [show hashtagOpen ++ '#' :: (takeRun isTagWordChar rest).1 ++ spanClose =
          hashtagOpen ++ ('#' :: (takeRun isTagWordChar rest).1) ++ spanClose from by simp]
        exact innerTextOf_wrap hashtagOpen hashtagOpen_mem _ hbmid
  · by_cases h2 : isJsWs c
    · cases rest with
      | nil =>
        rw [hashtagTry_cons, if_neg h1, if_pos h2] at hm
        replace hm : (none : Option (List Char × Nat)) = some (rep, n) := hm
        exact absurd hm (by simp)
      | cons c2 r2 =>
        rw [hashtagTry_ws i c c2 r2 h1 h2] at hm
        by_cases h3 : c2 = '#'
        · subst h3
          rw [if_pos rfl] at hm
          by_cases hemp : (takeRun isTagWordChar r2).1.isEmpty
          · rw [if_pos hemp] at hm; exact absurd hm (by simp)
          · rw [if_neg hemp] at hm
            simp only [Option.some.injEq, Prod.mk.injEq] at hm
            obtain ⟨hrep, hn⟩ := hm
            obtain ⟨-, hbr2⟩ := blocks_cons_inv '#' r2 hb (by decide) (by decide)
            obtain ⟨hrun, hb2, hsplit⟩ :=
              takeRun_blocks_safe isTagWordChar (by decide) (by decide) r2 hbr2
            have hrunSafe : ∀ d ∈ (takeRun isTagWordChar r2).1, isSpecialChar d = false :=
              fun d hd => (hrun d hd).2
            have hbhash : Blocks ('#' :: (takeRun isTagWordChar r2).1) :=
              Blocks.safe _ _ (by decide) (safe_blocks _ hrunSafe)
            have hbmid : Blocks (c :: '#' :: (takeRun isTagWordChar r2).1) :=
              Blocks.safe _ _ hc hbhash
            refine ⟨c :: '#' :: (takeRun isTagWordChar r2).1, (takeRun isTagWordChar r2).2,
              ?_, ?_, ?_, hbmid, hb2, ?_, ?_⟩
            · rw [List.cons_append, List.cons_append]
              exact congrArg (c :: ·) (congrArg ('#' :: ·) hsplit)
            · simp [← hn, List.length_cons]; omega
            · omega
            · rw [← hrep]
              have hbw : Blocks (hashtagOpen ++ ('#' :: (takeRun isTagWordChar r2).1) ++
                  spanClose) :=
                blocks_wrap hashtagOpen hashtagOpen_mem _ hbhash
              rw [show c :: (hashtagOpen ++ '#' :: (takeRun isTagWordChar r2).1 ++ spanClose) =
                c :: (hashtagOpen ++ ('#' :: (takeRun isTagWordChar r2).1) ++ spanClose)
                from by simp]
              exact Blocks.safe _ _ hc hbw
            · rw [← hrep]
              rw [show c :: (hashtagOpen ++ '#' :: (takeRun isTagWordChar r2).1 ++ spanClose) =
                c :: (hashtagOpen ++ ('#' :: (takeRun isTagWordChar r2).1) ++ spanClose)
                from by simp]
              rw [innerTextOf_safe_cons c _ hc,
                innerTextOf_wrap hashtagOpen hashtagOpen_mem _ hbhash,
                innerTextOf_safe_cons c _ hc]
        · rw [if_neg h3] at hm
          exact absurd hm (by simp)
    · rw [hashtagTry_cons, if_neg h1, if_neg h2] at hm
      exact absurd hm (by simp)


theorem urlCont_eq (pref r : List Char) :
    urlCont pref r =
      match matchCi slashPat r with
      | none => none
      | some (sl, r2) => urlAfterSlash pref sl r2 := rfl

theorem urlAfterSlash_match (pref sl r2 : List Char) (rep : List Char) (n : Nat)
    (hprefS : ∀ c ∈ pref, isSpecialChar c = false)
    (hslS : ∀ c ∈ sl, isSpecialChar c = false)
    (hb : Blocks r2)
    (hm : urlAfterSlash pref sl r2 = some (rep, n)) :
    ∃ body rest2,
      r2 = body ++ rest2 ∧
      n = pref.length + sl.length + body.length ∧
      Blocks body ∧ Blocks rest2 ∧ Blocks rep ∧
      innerTextOf rep = innerTextOf ((pref ++ sl) ++ body) := by
  unfold urlAfterSlash at hm
  by_cases h1 : (takeRun isHostChar r2).1.isEmpty
  · rw [if_pos h1] at hm; exact absurd hm (by simp)
  · rw [if_neg h1] at hm
    by_cases h2 : (takeDotGroups (takeRun isHostChar r2).2).1.isEmpty
    · rw [if_pos h2] at hm; exact absurd hm (by simp)
    · rw [if_neg h2] at hm
      simp only [Option.some.injEq, Prod.mk.injEq] at hm
      obtain ⟨hrep, hn⟩ := hm
      obtain ⟨hhostC, hb3, hsplit3⟩ :=
        takeRun_blocks_safe isHostChar (by decide) (by decide) r2 hb
      obtain ⟨hdotsC, hb4, hsplit4⟩ :=
        takeDotGroups_blocks (takeRun isHostChar r2).2.length _ le_rfl hb3
      obtain ⟨hAR, hb5, hsplit5⟩ := takeRun_isUrlA_blocks _ hb4
      obtain ⟨hbTail, dropped, hsplitT, hdropS⟩ := trim_arun _ hAR
      have hbHost : Blocks (takeRun isHostChar r2).1 :=
        safe_blocks _ (fun d hd => (hhostC d hd).2)
      have hbDots : Blocks (takeDotGroups (takeRun isHostChar r2).2).1 :=
        safe_blocks _ hdotsC
      have hbBody : Blocks ((takeRun isHostChar r2).1 ++
          ((takeDotGroups (takeRun isHostChar r2).2).1 ++
            trimToLastB ((takeRun isUrlA (takeDotGroups (takeRun isHostChar r2).2).2).1))) :=
        blocks_append _ _ hbHost (blocks_append _ _ hbDots hbTail)
      have hbUrl : Blocks (pref ++ sl ++ (takeRun isHostChar r2).1 ++
          (takeDotGroups (takeRun isHostChar r2).2).1 ++
          trimToLastB ((takeRun isUrlA (takeDotGroups (takeRun isHostChar r2).2).2).1)) :=
        blocks_append _ _
          (blocks_append _ _
            (blocks_append _ _
              (blocks_append _ _ (safe_blocks _ hprefS) (safe_blocks _ hslS))
              hbHost)
            hbDots)
          hbTail
      refine ⟨(takeRun isHostChar r2).1 ++
          ((takeDotGroups (takeRun isHostChar r2).2).1 ++
            trimToLastB ((takeRun isUrlA (takeDotGroups (takeRun isHostChar r2).2).2).1)),
        dropped ++ (takeRun isUrlA (takeDotGroups (takeRun isHostChar r2).2).2).2,
        ?_, ?_, hbBody, ?_, ?_, ?_⟩
      · have e1 : r2 = (takeRun isHostChar r2).1 ++
            ((takeDotGroups (takeRun isHostChar r2).2).1 ++
              ((trimToLastB ((takeRun isUrlA (takeDotGroups (takeRun isHostChar r2).2).2).1) ++
                dropped) ++
                (takeRun isUrlA (takeDotGroups (takeRun isHostChar r2).2).2).2)) := by
          have e5 := hsplit5
          rw [hsplitT] at e5
          have e4 := hsplit4
          rw [e5] at e4
          have e3 := hsplit3
          rw [e4] at e3
          exact e3
        refine e1.trans ?_
        simp [List.append_assoc]
      · rw [← hn]
        simp [List.length_append]
        try omega
      · exact blocks_append _ _ (safe_blocks _ (fun d hd => (hdropS d hd).1)) hb5
      · rw [← hrep]
        exact blocks_wrap urlOpen urlOpen_mem _ hbUrl
      · rw [← hrep, innerTextOf_wrap urlOpen urlOpen_mem _ hbUrl]
        congr 1
        simp [List.append_assoc]

theorem url_match (c : Char) (rest rep : List Char) (n : Nat)
    (hc : isSpecialChar c = false) (hb : Blocks rest)
    (hm : urlTry (c :: rest) = some (rep, n)) :
    ∃ mid rest2, c :: rest = mid ++ rest2 ∧ n = mid.length ∧ 1 ≤ n ∧
      Blocks mid ∧ Blocks rest2 ∧ Blocks rep ∧ innerTextOf rep = innerTextOf mid := by
  rw [show urlTry (c :: rest) =
      match matchCi httpPat (c :: rest) with
      | none => none
      | some (proto, r1) => urlProto proto r1 from rfl] at hm
  rcases hp : matchCi httpPat (c :: rest) with _ | ⟨proto, r1⟩
  · rw [hp] at hm
    replace hm : (none : Option (List Char × Nat)) = some (rep, n) := hm
    exact absurd hm (by simp)
  · rw [hp] at hm
    replace hm : urlProto proto r1 = some (rep, n) := hm
    obtain ⟨hprotoS, hbr1, hsplit1, hlen1⟩ :=
      matchCi_blocks httpPat (by decide) (c :: rest) proto r1 (Blocks.safe c rest hc hb) hp
    have h4 : proto.length = 4 := by simpa [httpPat] using hlen1
    cases r1 with
    | nil =>
      rw [urlProto, urlCont_eq] at hm
      replace hm : (none : Option (List Char × Nat)) = some (rep, n) := hm
      exact absurd hm (by simp)
    | cons c1 r1' =>
      rw [urlProto] at hm
      by_cases hs : c1 = 's' ∨ c1 = 'S'
      · rw [if_pos hs] at hm
        have hc1S : isSpecialChar c1 = false := by rcases hs with rfl | rfl <;> decide
        obtain ⟨-, hbr1'⟩ := blocks_cons_inv c1 r1' hbr1
          (by rcases hs with rfl | rfl <;> decide) (by rcases hs with rfl | rfl <;> decide)
        rw [show urlWithS proto c1 r1' =
            match urlCont (proto ++ [c1]) r1' with
            | some res => some res
            | none => urlCont proto (c1 :: r1') from rfl] at hm
        rcases hcont : urlCont (proto ++ [c1]) r1' with _ | res
        · rw [hcont] at hm
          replace hm : urlCont proto (c1 :: r1') = some (rep, n) := hm
          rw [urlCont_eq] at hm
          have hnone : matchCi slashPat (c1 :: r1') = none := by
            rcases hs with rfl | rfl <;> rfl
          rw [hnone] at hm
          replace hm : (none : Option (List Char × Nat)) = some (rep, n) := hm
          exact absurd hm (by simp)
        · rw [hcont] at hm
          replace hm : some res = some (rep, n) := hm
          simp only [Option.some.injEq] at hm
          subst hm
          rw [urlCont_eq] at hcont
          rcases hsl : matchCi slashPat r1' with _ | ⟨sl, r2⟩
          · rw [hsl] at hcont
            replace hcont : (none : Option (List Char × Nat)) = some (rep, n) := hcont
            exact absurd hcont (by simp)
          · rw [hsl] at hcont
            replace hcont : urlAfterSlash (proto ++ [c1]) sl r2 = some (rep, n) := hcont
            obtain ⟨hslS, hbr2, hsplit2, hlen2⟩ :=
              matchCi_blocks slashPat (by decide) r1' sl r2 hbr1' hsl
            have hprefS : ∀ d ∈ proto ++ [c1], isSpecialChar d = false := by
              intro d hd
              rcases List.mem_append.mp hd with hd | hd
              · exact hprotoS d hd
              · simp only [List.mem_singleton] at hd
                subst hd
                exact hc1S
            obtain ⟨body, rest2, hsB, hnB, hbBody, hbRest2, hbRep, hitRep⟩ :=
              urlAfterSlash_match (proto ++ [c1]) sl r2 rep n hprefS hslS hbr2 hcont
            refine ⟨((proto ++ [c1]) ++ sl) ++ body, rest2, ?_, ?_, ?_, ?_, hbRest2,
              hbRep, hitRep⟩
            · rw [hsplit1, hsplit2, hsB]
              simp [List.append_assoc]
            · rw [hnB]
              simp [List.length_append]
              try omega
            · simp only [List.length_append, List.length_singleton] at hnB
              omega
            · exact blocks_append _ _
                (blocks_append _ _ (safe_blocks _ hprefS) (safe_blocks _ hslS)) hbBody
      · rw [if_neg hs] at hm
        rw [urlCont_eq] at hm
        rcases hsl : matchCi slashPat (c1 :: r1') with _ | ⟨sl, r2⟩
        · rw [hsl] at hm
          replace hm : (none : Option (List Char × Nat)) = some (rep, n) := hm
          exact absurd hm (by simp)
        · rw [hsl] at hm
          replace hm : urlAfterSlash proto sl r2 = some (rep, n) := hm
          obtain ⟨hslS, hbr2, hsplit2, hlen2⟩ :=
            matchCi_blocks slashPat (by decide) (c1 :: r1') sl r2 hbr1 hsl
          obtain ⟨body, rest2, hsB, hnB, hbBody, hbRest2, hbRep, hitRep⟩ :=
            urlAfterSlash_match proto sl r2 rep n hprotoS hslS hbr2 hm
          refine ⟨(proto ++ sl) ++ body, rest2, ?_, ?_, ?_, ?_, hbRest2, hbRep, hitRep⟩
          · rw [hsplit1, hsplit2, hsB]
            simp [List.append_assoc]
          · rw [hnB]
            simp [List.length_append]
            try omega
          · omega
          · exact blocks_append _ _
              (blocks_append _ _ (safe_blocks _ hprotoS) (safe_blocks _ hslS)) hbBody


theorem scan_preserve (tryAt : Nat → List Char → Option (List Char × Nat))
    (hskip : ∀ v, v ∈ entityList ∨ v ∈ fragList → ∀ i r,
      scanReplace tryAt i (v ++ r) = v ++ scanReplace tryAt (i + v.length) r)
    (hmatch : ∀ i c rest rep n, isSpecialChar c = false → Blocks rest →
      tryAt i (c :: rest) = some (rep, n) →
      ∃ mid rest2, c :: rest = mid ++ rest2 ∧ n = mid.length ∧ 1 ≤ n ∧
        Blocks mid ∧ Blocks rest2 ∧ Blocks rep ∧ innerTextOf rep = innerTextOf mid) :
    ∀ (fuel : Nat) (s : List Char), s.length ≤ fuel → Blocks s → ∀ i,
      Blocks (scanReplace tryAt i s) ∧
      innerTextOf (scanReplace tryAt i s) = innerTextOf s := by
  intro fuel
  induction fuel with
  | zero =>
    intro s hlen hb i
    have hnil : s = [] := by cases s <;> simp_all
    subst hnil
    rw [scanReplace_nil]
    exact ⟨Blocks.nil, rfl⟩
  | succ f ih =>
    intro s hlen hb i
    rcases blocks_inv s hb with rfl | ⟨c, rest, rfl, hc, hbr⟩ |
      ⟨e, rest, rfl, hme, hbr⟩ | ⟨fg, rest, rfl, hmf, hbr⟩
    · rw [scanReplace_nil]
      exact ⟨Blocks.nil, rfl⟩
    · rcases htry : tryAt i (c :: rest) with _ | ⟨rep, n⟩
      · rw [scanReplace_cons_none tryAt i c rest htry]
        have hrl : rest.length ≤ f := by
          simp only [List.length_cons] at hlen; omega
        obtain ⟨ihB, ihT⟩ := ih rest hrl hbr (i + 1)
        refine ⟨Blocks.safe c _ hc ihB, ?_⟩
        rw [innerTextOf_safe_cons c _ hc, innerTextOf_safe_cons c _ hc, ihT]
      · obtain ⟨mid, rest2, hsplit, hn, hn1, hbMid, hbRest2, hbRep, hitRep⟩ :=
          hmatch i c rest rep n hc hbr htry
        rw [scanReplace_cons_some tryAt i c rest rep n htry (by omega)]
        have hdrop : rest.drop (n - 1) = rest2 := by
          have h1 : (c :: rest).drop n = rest2 := by
            rw [hsplit, hn]
            exact List.drop_left mid rest2
          rw [show n = (n - 1) + 1 from by omega] at h1
          simpa using h1
        rw [hdrop]
        have hlen2 : (c :: rest).length = mid.length + rest2.length := by
          rw [hsplit]; simp
        have hrl2 : rest2.length ≤ f := by
          simp only [List.length_cons] at hlen hlen2
          omega
        obtain ⟨ihB, ihT⟩ := ih rest2 hrl2 hbRest2 (i + n)
        refine ⟨blocks_append _ _ hbRep ihB, ?_⟩
        rw [innerTextOf_blocks_append _ hbRep, ihT, hitRep,
          ← innerTextOf_blocks_append _ hbMid, ← hsplit]
    · rw [hskip e (Or.inl hme) i rest]
      have hel : 1 ≤ e.length := by
        obtain ⟨t, rfl⟩ := entity_head e hme; simp
      have hrl : rest.length ≤ f := by
        simp only [List.length_append] at hlen; omega
      obtain ⟨ihB, ihT⟩ := ih rest hrl hbr (i + e.length)
      refine ⟨Blocks.ent e _ hme ihB, ?_⟩
      rw [innerTextOf_ent e hme, innerTextOf_ent e hme, ihT]
    · rw [hskip fg (Or.inr hmf) i rest]
      have hel : 1 ≤ fg.length := by
        obtain ⟨t, rfl⟩ := frag_head fg hmf; simp
      have hrl : rest.length ≤ f := by
        simp only [List.length_append] at hlen; omega
      obtain ⟨ihB, ihT⟩ := ih rest hrl hbr (i + fg.length)
      refine ⟨Blocks.frag fg _ hmf ihB, ?_⟩
      rw [innerTextOf_frag fg hmf, innerTextOf_frag fg hmf, ihT]

theorem rule1_preserve (s : List Char) (hb : Blocks s) :
    Blocks (rule1 s) ∧ innerTextOf (rule1 s) = innerTextOf s :=
  scan_preserve hashtagTry hashtag_skip_block
    (fun i c rest rep n hc hbr htry => hashtag_match i c rest rep n hc hbr htry)
    s.length s le_rfl hb 0

theorem rule2_preserve (s : List Char) (hb : Blocks s) :
    Blocks (rule2 s) ∧ innerTextOf (rule2 s) = innerTextOf s :=
  scan_preserve (fun _ t => urlTry t) url_skip_block
    (fun _ c rest rep n hc hbr htry => url_match c rest rep n hc hbr htry)
    s.length s le_rfl hb 0

theorem rule3_preserve (s : List Char) (hb : Blocks s) :
    Blocks (rule3 s) ∧ innerTextOf (rule3 s) = innerTextOf s :=
  scan_preserve (fun _ t => mentionTry t) mention_skip_block
    (fun _ c rest rep n hc hbr htry => mention_match c rest rep n hc hbr htry)
    s.length s le_rfl hb 0

theorem applyRegexs_preserve (s : List Char) (hb : Blocks s) :
    Blocks (applyRegexs s) ∧ innerTextOf (applyRegexs s) = innerTextOf s := by
  have h1 := rule1_preserve s hb
  have h2 := rule2_preserve _ h1.1
  have h3 := rule3_preserve _ h2.1
  exact ⟨h3.1, by rw [show applyRegexs s = rule3 (rule2 (rule1 s)) from rfl,
    h3.2, h2.2, h1.2]⟩

/-- C4: `utils.highlight` escapes the five markup-significant characters
before any rule runs (`highlightMarkup` is, definitionally, the ordered rule
pipeline applied to `escapeHTML text`), and the final markup is
block-structured: every one of the five characters occurring in it lies
inside an entity produced by the escape (an escaped occurrence of original
text) or inside a rule-template fragment — never as an unescaped occurrence
of the original text outside rule-generated markup. -/
theorem c4_escape_safety (t : List Char) :
    highlightMarkup t = applyRegexs (escapeHTML t) ∧ Blocks (highlightMarkup t) := by
  refine ⟨rfl, ?_⟩
  exact (applyRegexs_preserve (escapeHTML t) (escape_blocks t)).1

/-- C5 (amended): when the pre-event logical text contains none of the five
markup-significant characters, the line-break handler does splice the
literal `"\r\n"` into the logical text at the captured range `[start, end)`,
restores the caret at `start + 1`, fires `change`, and suppresses the
default insertion.  (For texts containing markup-significant characters the
raw `innerHTML` write re-interprets them as markup — see the
counterexample.) -/
theorem c5_amended_linebreak (markup0 : List Char) (pos : Pos)
    (h : ∀ c ∈ innerTextOf markup0, isSpecialChar c = false) :
    (onKeyPress 13 markup0 pos).text =
      (innerTextOf markup0).take pos.start ++ "\r\n".data ++
        (innerTextOf markup0).drop pos.stop ∧
    (onKeyPress 13 markup0 pos).caretReq = some (pos.start + 1) ∧
    (onKeyPress 13 markup0 pos).changeFired = true ∧
    (onKeyPress 13 markup0 pos).prevented = true := by
  have hm1 : ∀ c ∈ (innerTextOf markup0).take pos.start ++ "\r\n".data ++
      (innerTextOf markup0).drop pos.stop, isSpecialChar c = false := by
    intro d hd
    simp only [List.mem_append] at hd
    rcases hd with (hd | hd) | hd
    · exact h d (List.take_subset _ _ hd)
    · have : d = '\r' ∨ d = '\n' := by
        simpa using hd
      rcases this with rfl | rfl <;> decide
    · exact h d (List.drop_subset _ _ hd)
  have hkey : onKeyPress 13 markup0 pos =
      ⟨highlightMarkup (innerTextOf ((innerTextOf markup0).take pos.start ++
          "\r\n".data ++ (innerTextOf markup0).drop pos.stop)),
        innerTextOf (highlightMarkup (innerTextOf ((innerTextOf markup0).take pos.start ++
          "\r\n".data ++ (innerTextOf markup0).drop pos.stop))),
        some (pos.start + 1), true, true, true, false⟩ := rfl
  have hit1 : innerTextOf ((innerTextOf markup0).take pos.start ++
      "\r\n".data ++ (innerTextOf markup0).drop pos.stop) =
      (innerTextOf markup0).take pos.start ++ "\r\n".data ++
        (innerTextOf markup0).drop pos.stop :=
    innerTextOf_all_safe _ hm1
  have hesc : escapeHTML ((innerTextOf markup0).take pos.start ++
      "\r\n".data ++ (innerTextOf markup0).drop pos.stop) =
      (innerTextOf markup0).take pos.start ++ "\r\n".data ++
        (innerTextOf markup0).drop pos.stop :=
    escape_all_safe _ hm1
  have hb1 : Blocks ((innerTextOf markup0).take pos.start ++
      "\r\n".data ++ (innerTextOf markup0).drop pos.stop) :=
    safe_blocks _ hm1
  rw [hkey]
  refine ⟨?_, rfl, rfl, rfl⟩
  show innerTextOf (highlightMarkup (innerTextOf _)) = _
  rw [hit1, show ∀ u, highlightMarkup u = applyRegexs (escapeHTML u) from fun _ => rfl,
    hesc, (applyRegexs_preserve _ hb1).2, hit1]

theorem c5_amended_linebreak_witness :
    (∀ c ∈ innerTextOf "ab".data, isSpecialChar c = false) ∧
    (onKeyPress 13 "ab".data ⟨1, 1⟩).text = "a\r\nb".data ∧
    (onKeyPress 13 "ab".data ⟨1, 1⟩).caretReq = some 2 ∧
    (onKeyPress 13 "ab".data ⟨1, 1⟩).changeFired = true ∧
    (onKeyPress 13 "ab".data ⟨1, 1⟩).prevented = true := by
  have e : innerTextOf "ab".data = "ab".data :=
    innerTextOf_all_safe _ (by decide)
  have hh : ∀ c ∈ innerTextOf "ab".data, isSpecialChar c = false := by
    rw [e]; decide
  have h := c5_amended_linebreak "ab".data ⟨1, 1⟩ hh
  refine ⟨hh, ?_, h.2.1, h.2.2.1, h.2.2.2⟩
  rw [h.1, e]
  decide

end CEH
